import Mathlib

/-!
Verification of the directory-walker core of find-untracked-files.

The embedding models `walkfd` from src/find-untracked-files.c — the recursive
fd-based tree walker that enumerates directory entries with getdents, classifies
them by the d_type hint, recurses into subdirectories via openat, and for
regular files (and, optionally, symlinks) tests the root-relative path against
the hash set of package-owned paths, printing untracked paths.

Paths are byte strings; we model them as lists of characters (`Str`).  A
filesystem subtree is an `FSNode`: a non-directory entry carrying its d_type
hint, a directory whose open fails with some errno, or an openable directory
with an entry list (name, subtree) and a flag telling whether the getdents
enumeration fails after delivering the entries.
-/

/-- Byte strings (C strings without the terminating NUL). -/
abbrev Str := List Char

/-- dirent.h: DT_UNKNOWN. -/
def DT_UNKNOWN : Nat := 0
/-- dirent.h: DT_FIFO. -/
def DT_FIFO : Nat := 1
/-- dirent.h: DT_CHR. -/
def DT_CHR : Nat := 2
/-- dirent.h: DT_DIR. -/
def DT_DIR : Nat := 4
/-- dirent.h: DT_BLK. -/
def DT_BLK : Nat := 6
/-- dirent.h: DT_REG. -/
def DT_REG : Nat := 8
/-- dirent.h: DT_LNK. -/
def DT_LNK : Nat := 10
/-- dirent.h: DT_SOCK. -/
def DT_SOCK : Nat := 12

/-- errno.h: EACCES (permission denied). -/
def EACCES : Nat := 13
/-- errno.h: ENOTDIR, produced by openat with O_DIRECTORY on a non-directory. -/
def ENOTDIR : Nat := 20

/-- A filesystem subtree as seen by the walker.

* `file d` — a non-directory entry whose getdents d_type hint is `d`
  (DT_REG, DT_LNK, DT_BLK, DT_CHR, DT_FIFO, DT_SOCK, or DT_UNKNOWN when the
  filesystem provides no hint);
* `dirFail e` — a directory for which open/openat fails with errno `e`;
* `dirOk entries readBad` — a directory that opens; getdents delivers
  `entries` (name and subtree per entry) and, when `readBad` is set, the next
  getdents call fails with -1 (a failure reading directory contents). -/
inductive FSNode where
  | file (dtype : Nat)
  | dirFail (errno : Nat)
  | dirOk (entries : List (Str × FSNode)) (readBad : Bool)

/-- The d_type hint getdents supplies for an entry: directories are reported
as DT_DIR, other entries carry their own hint. -/
def FSNode.dtype : FSNode → Nat
  | .file d => d
  | .dirFail _ => DT_DIR
  | .dirOk _ _ => DT_DIR

/-- The name of the "." pseudo-entry. -/
def dotName : Str := ['.']

/-- The name of the ".." pseudo-entry. -/
def ddotName : Str := ['.', '.']

/-- stderr line for `cannot open directory '%s%s': Permission denied`. -/
def permMsg (root rel : Str) : Str :=
  "find-untracked-files: cannot open directory '".toList ++ root ++ rel ++
    "': Permission denied".toList

/-- stderr line for `cannot open directory '%s%s': error %d`. -/
def openFailMsg (root rel : Str) (e : Nat) : Str :=
  "cannot open directory '".toList ++ root ++ rel ++ "': error ".toList ++
    (Nat.repr e).toList

/-- stderr line for a getdents failure. -/
def getdentsMsg : Str := "Failed to get directory entries!".toList

/-- stderr line for `FAIL: could not get file type of %s%s`. -/
def unknownMsg (root rel : Str) : Str :=
  "FAIL: could not get file type of ".toList ++ root ++ rel

/-- Observable behaviour of one walk: stdout lines (`out`), the sequence of
membership queries submitted to the hash set (`tests`), stderr lines (`errs`),
and the C return value (`ret`, 0 or -1). -/
structure WalkOut where
  out : List Str
  tests : List Str
  errs : List Str
  ret : Int
deriving Repr, DecidableEq

mutual

/-- Reference walker with naive per-entry path construction: the path of each
entry is rebuilt by simple concatenation `rel ++ "/" ++ name` (the construction
the spec describes and the readdir-based variant implementations use, e.g.
`walkdir`'s `snprintf(fullpath, pathlen, "%s/%s", path, entry->d_name)`).
Control flow, classification, error policy and the membership test follow
`walkfd` from src/find-untracked-files.c. -/
def walkCat (node : FSNode) (root rel : Str) (symlinks silent : Bool)
    (hs : List Str) : WalkOut :=
  match node with
  | .file _ => ⟨[], [], [openFailMsg root rel ENOTDIR], -1⟩
  | .dirFail e =>
      if e = EACCES then
        ⟨[], [], if silent then [] else [permMsg root rel], 0⟩
      else
        ⟨[], [], [openFailMsg root rel e], -1⟩
  | .dirOk entries readBad =>
      let r := walkCatList entries root rel symlinks silent hs
      if r.ret ≠ 0 then r
      else if readBad then ⟨r.out, r.tests, r.errs ++ [getdentsMsg], -1⟩
      else r
termination_by sizeOf node

/-- Entry loop of the reference walker, one step per getdents entry. -/
def walkCatList (entries : List (Str × FSNode)) (root rel : Str)
    (symlinks silent : Bool) (hs : List Str) : WalkOut :=
  match entries with
  | [] => ⟨[], [], [], 0⟩
  | (name, node) :: rest =>
      let epath := rel ++ '/' :: name
      if node.dtype = DT_UNKNOWN then
        ⟨[], [], [unknownMsg root epath], -1⟩
      else if node.dtype = DT_DIR ∧ (name = dotName ∨ name = ddotName) then
        walkCatList rest root rel symlinks silent hs
      else if node.dtype = DT_DIR then
        let w := walkCat node root epath symlinks silent hs
        if w.ret ≠ 0 then w
        else
          let r := walkCatList rest root rel symlinks silent hs
          ⟨w.out ++ r.out, w.tests ++ r.tests, w.errs ++ r.errs, r.ret⟩
      else if node.dtype = DT_REG ∨ (node.dtype = DT_LNK ∧ symlinks = true) then
        let r := walkCatList rest root rel symlinks silent hs
        if epath ∈ hs then ⟨r.out, epath :: r.tests, r.errs, r.ret⟩
        else ⟨(root ++ epath) :: r.out, epath :: r.tests, r.errs, r.ret⟩
      else
        walkCatList rest root rel symlinks silent hs
termination_by sizeOf entries

end

/-- Directory-handle events: an openat that yields a real descriptor, and the
matching close. -/
inductive HEv where
  | acquire
  | release
deriving Repr, DecidableEq

/-- The handle events produced around one child call of `walkfd`: the parent's
`openat` yields a real descriptor exactly when the child directory opens
(`dirOk`); `close(nextfd)` runs unconditionally right after the child call, so
a successful open is always paired with a close, while a failed `openat`
(returning -1) allocates nothing and `close(-1)` releases nothing. -/
def wrapEv : FSNode → List HEv → List HEv
  | .dirOk _ _, t => HEv.acquire :: t ++ [HEv.release]
  | _, t => t

/-- Result of the buffer-based walker: observable behaviour `w`, the final
content of the shared path buffer `buf`, every intermediate content the buffer
takes during the call (`snaps`, one snapshot per in-place path construction),
and the directory-handle event trace `hev`. -/
structure BufOut where
  w : WalkOut
  buf : Str
  snaps : List Str
  hev : List HEv
deriving Repr, DecidableEq

mutual

/-- Embedding of `walkfd` from src/find-untracked-files.c.

The node is the subtree reachable through the fd argument (`dirFail e` models
`fd == -1 && errno == e`; calling the walker on a non-directory models
`openat(..., O_DIRECTORY)` failing with ENOTDIR).  `alpm_path` is the current
content of the shared path buffer; `path_length = strlen(alpm_path)` is taken
once on entry, and each entry overwrites the buffer at that offset with
`"/" ++ name` (`strcpy(alpm_path + path_length, "/")` followed by
`strcpy(alpm_path + path_length + 1, entry->d_name)`).  An entry whose d_type
is DT_UNKNOWN is immediately fatal; DT_DIR entries other than "." and ".." are
recursed into through `openat`, with `close(nextfd)` before the error check;
DT_REG entries (and DT_LNK when `symlinks`) are tested against `hs` and
printed as `root ++ path` when absent. -/
def walkfd (node : FSNode) (root alpm_path : Str) (symlinks silent : Bool)
    (hs : List Str) : BufOut :=
  match node with
  | .file _ =>
      ⟨⟨[], [], [openFailMsg root alpm_path ENOTDIR], -1⟩, alpm_path, [], []⟩
  | .dirFail e =>
      if e = EACCES then
        ⟨⟨[], [], if silent then [] else [permMsg root alpm_path], 0⟩,
          alpm_path, [], []⟩
      else
        ⟨⟨[], [], [openFailMsg root alpm_path e], -1⟩, alpm_path, [], []⟩
  | .dirOk entries readBad =>
      let r := walkfdList entries root alpm_path.length alpm_path
        symlinks silent hs
      if r.w.ret ≠ 0 then r
      else if readBad then
        ⟨⟨r.w.out, r.w.tests, r.w.errs ++ [getdentsMsg], -1⟩, r.buf, r.snaps,
          r.hev⟩
      else r
termination_by sizeOf node

/-- Entry loop of `walkfd`: `pathLen` is the `path_length` captured at the
enclosing level's entry, `buf` the current buffer content.  Every entry first
overwrites the buffer suffix at `pathLen` (this rewritten content is recorded
in `snaps`), then is classified exactly as in the C loop. -/
def walkfdList (entries : List (Str × FSNode)) (root : Str) (pathLen : Nat)
    (buf : Str) (symlinks silent : Bool) (hs : List Str) : BufOut :=
  match entries with
  | [] => ⟨⟨[], [], [], 0⟩, buf, [], []⟩
  | (name, node) :: rest =>
      let buf1 := buf.take pathLen ++ '/' :: name
      if node.dtype = DT_UNKNOWN then
        ⟨⟨[], [], [unknownMsg root buf1], -1⟩, buf1, [buf1], []⟩
      else if node.dtype = DT_DIR ∧ (name = dotName ∨ name = ddotName) then
        let r := walkfdList rest root pathLen buf1 symlinks silent hs
        ⟨r.w, r.buf, buf1 :: r.snaps, r.hev⟩
      else if node.dtype = DT_DIR then
        let c := walkfd node root buf1 symlinks silent hs
        if c.w.ret ≠ 0 then ⟨c.w, c.buf, buf1 :: c.snaps, wrapEv node c.hev⟩
        else
          let r := walkfdList rest root pathLen c.buf symlinks silent hs
          ⟨⟨c.w.out ++ r.w.out, c.w.tests ++ r.w.tests, c.w.errs ++ r.w.errs,
              r.w.ret⟩,
            r.buf, buf1 :: (c.snaps ++ r.snaps), wrapEv node c.hev ++ r.hev⟩
      else if node.dtype = DT_REG ∨ (node.dtype = DT_LNK ∧ symlinks = true) then
        let r := walkfdList rest root pathLen buf1 symlinks silent hs
        if buf1 ∈ hs then
          ⟨⟨r.w.out, buf1 :: r.w.tests, r.w.errs, r.w.ret⟩, r.buf,
            buf1 :: r.snaps, r.hev⟩
        else
          ⟨⟨(root ++ buf1) :: r.w.out, buf1 :: r.w.tests, r.w.errs, r.w.ret⟩,
            r.buf, buf1 :: r.snaps, r.hev⟩
      else
        let r := walkfdList rest root pathLen buf1 symlinks silent hs
        ⟨r.w, r.buf, buf1 :: r.snaps, r.hev⟩
termination_by sizeOf entries

end

mutual

/-- All entries the walk enumerates under an accessible subtree, in traversal
order: for each entry of an opened directory, its full relative path and its
d_type hint; subdirectories (other than "." and "..") are descended into,
directories that fail to open contribute nothing below them. -/
def entriesOfN (node : FSNode) (rel : Str) : List (Str × Nat) :=
  match node with
  | .file _ => []
  | .dirFail _ => []
  | .dirOk entries _ => entriesOfL entries rel
termination_by sizeOf node

/-- Entry-list part of `entriesOfN`. -/
def entriesOfL (entries : List (Str × FSNode)) (rel : Str) :
    List (Str × Nat) :=
  match entries with
  | [] => []
  | (name, node) :: rest =>
      let epath := rel ++ '/' :: name
      ((epath, node.dtype) ::
          if node.dtype = DT_DIR ∧ name ≠ dotName ∧ name ≠ ddotName then
            entriesOfN node epath
          else []) ++
        entriesOfL rest rel
termination_by sizeOf entries

end

/-- The walker's classification of reportable entries: regular files, plus
symlinks when symlink checking is enabled. -/
def reachPred (symlinks : Bool) (e : Str × Nat) : Bool :=
  decide (e.2 = DT_REG) || (decide (e.2 = DT_LNK) && symlinks)

/-- The relative paths of the regular files — and, when `symlinks` is set, the
symlinks — reachable under accessible subtrees, in traversal order: exactly the
entries the walker classifies as reportable. -/
def reachFiles (node : FSNode) (rel : Str) (symlinks : Bool) : List Str :=
  ((entriesOfN node rel).filter (reachPred symlinks)).map Prod.fst

/-- Entry-list part of `reachFiles`. -/
def reachL (l : List (Str × FSNode)) (rel : Str) (symlinks : Bool) :
    List Str :=
  ((entriesOfL l rel).filter (reachPred symlinks)).map Prod.fst

/-- The relative paths of the symlink entries enumerated under accessible
subtrees. -/
def linkPaths (node : FSNode) (rel : Str) : List Str :=
  ((entriesOfN node rel).filter fun e => decide (e.2 = DT_LNK)).map Prod.fst

/-- stat.h S_IFMT mask. -/
def S_IFMT : Nat := 0xF000
/-- stat.h S_IFREG. -/
def S_IFREG : Nat := 0x8000
/-- stat.h S_IFDIR. -/
def S_IFDIR : Nat := 0x4000
/-- stat.h S_IFLNK. -/
def S_IFLNK : Nat := 0xA000
/-- stat.h S_IFBLK. -/
def S_IFBLK : Nat := 0x6000
/-- stat.h S_IFCHR. -/
def S_IFCHR : Nat := 0x2000
/-- stat.h S_IFIFO. -/
def S_IFIFO : Nat := 0x1000
/-- stat.h S_IFSOCK. -/
def S_IFSOCK : Nat := 0xC000

/-- Embedding of `getfiletype` from the repository's readdir-based variant
implementations (src/unnamed/part_000): the lstat-based fallback used there
when a getdents/readdir d_type hint is DT_UNKNOWN.  The argument is the
outcome of `lstat` (which does not follow symlinks): `none` when lstat fails,
`some mode` with the `st_mode` bits otherwise.  The function masks the mode
with S_IFMT and maps the format onto the dirent.h classification, returning
-1 on lstat failure and DT_UNKNOWN on an unrecognised format. -/
def getfiletype (lstatRes : Option Nat) : Int :=
  match lstatRes with
  | none => -1
  | some mode =>
      let fmt := mode &&& S_IFMT
      if fmt = S_IFREG then DT_REG
      else if fmt = S_IFDIR then DT_DIR
      else if fmt = S_IFLNK then DT_LNK
      else if fmt = S_IFBLK then DT_BLK
      else if fmt = S_IFCHR then DT_CHR
      else if fmt = S_IFIFO then DT_FIFO
      else if fmt = S_IFSOCK then DT_SOCK
      else DT_UNKNOWN

mutual

/-- The directory depth of a subtree: the number of nested directory handles a
walk of the subtree needs (1 for the subtree's own directory when it opens,
plus the deepest chain of openable subdirectories). -/
def heightN : FSNode → Nat
  | .file _ => 0
  | .dirFail _ => 0
  | .dirOk entries _ => 1 + heightL entries
termination_by node => sizeOf node

/-- List part of `heightN`. -/
def heightL : List (Str × FSNode) → Nat
  | [] => 0
  | (_, node) :: rest => max (heightN node) (heightL rest)
termination_by entries => sizeOf entries

end

/-- Net number of directory handles a trace leaves open
(acquisitions minus releases). -/
def netEv (t : List HEv) : Int :=
  (t.count HEv.acquire : Int) - (t.count HEv.release : Int)

/-- The largest number of simultaneously held handles over all prefixes of a
trace (reading the trace left to right). -/
def peakEv : List HEv → Int
  | [] => 0
  | e :: t => max 0 ((if e = HEv.acquire then 1 else -1) + peakEv t)

/-- main's per-argument preprocessing: `if (path[strlen(path)-1] == '/')
path[strlen(path)-1] = '\0';` — one trailing slash is removed. -/
def stripSlash (p : Str) : Str :=
  if p.getLast? = some '/' then p.dropLast else p

/-- Observable behaviour of main's loop over the user-supplied search paths:
the walker invocations made (full path and root-relative path of each), the
stdout lines, and whether the process reaches the end of the loop (true) or
exits with EXIT_FAILURE (false). -/
structure RunOut where
  walked : List (Str × Str)
  out : List Str
  ok : Bool
deriving Repr, DecidableEq

/-- Embedding of the per-path loop at the end of `main` in
src/find-untracked-files.c: for each argument, one trailing slash is stripped;
if the installation root is not a byte-for-byte prefix of the result
(`strncmp(root, path, strlen(root))`), the process exits with EXIT_FAILURE
before any walk of that path; otherwise the root-relative path is the
remainder after the root prefix (`path + strlen(root)`), the walker runs on
it, and a nonzero walker result exits the process with EXIT_FAILURE.
`fs` maps each opened full path to the subtree behind it (including open
failures). -/
def runPaths (fs : Str → FSNode) (root : Str) (symlinks silent : Bool)
    (hs : List Str) : List Str → RunOut
  | [] => ⟨[], [], true⟩
  | p :: rest =>
      let q := stripSlash p
      if root.isPrefixOf q = false then ⟨[], [], false⟩
      else
        let r := q.drop root.length
        let w := walkfd (fs q) root r symlinks silent hs
        if w.w.ret ≠ 0 then ⟨[(q, r)], w.w.out, false⟩
        else
          let k := runPaths fs root symlinks silent hs rest
          ⟨(q, r) :: k.walked, w.w.out ++ k.out, k.ok⟩

mutual

/-- Mutual structural induction for `FSNode` and entry lists, node part. -/
def fsInd (P : FSNode → Prop) (Q : List (Str × FSNode) → Prop)
    (hfile : ∀ d, P (.file d)) (hfail : ∀ e, P (.dirFail e))
    (hok : ∀ l rf, Q l → P (.dirOk l rf))
    (hnil : Q [])
    (hcons : ∀ n node rest, P node → Q rest → Q ((n, node) :: rest)) :
    ∀ node, P node
  | .file d => hfile d
  | .dirFail e => hfail e
  | .dirOk l rf => hok l rf (fsIndL P Q hfile hfail hok hnil hcons l)
termination_by node => sizeOf node

/-- Mutual structural induction for `FSNode` and entry lists, list part. -/
def fsIndL (P : FSNode → Prop) (Q : List (Str × FSNode) → Prop)
    (hfile : ∀ d, P (.file d)) (hfail : ∀ e, P (.dirFail e))
    (hok : ∀ l rf, Q l → P (.dirOk l rf))
    (hnil : Q [])
    (hcons : ∀ n node rest, P node → Q rest → Q ((n, node) :: rest)) :
    ∀ l, Q l
  | [] => hnil
  | (n, node) :: rest =>
      hcons n node rest (fsInd P Q hfile hfail hok hnil hcons node)
        (fsIndL P Q hfile hfail hok hnil hcons rest)
termination_by l => sizeOf l

end

/-- Handle bound for the inside of one `walkfd` call: the events produced
while processing a directory's entries need at most `heightL entries`
simultaneous handles (the call's own handle is held by its caller). -/
def hBound : FSNode → Nat
  | .dirOk l _ => heightL l
  | _ => 0

/-- Concrete installation root used by the witnesses. -/
def wRoot : Str := ['/', 'r']

/-- Concrete root-relative path of the searched directory used by the
witnesses. -/
def wRel : Str := ['/', 's']

/-- Concrete index contents used by the witnesses: the path "/s/a" is
tracked. -/
def wHs : List Str := [['/', 's', '/', 'a']]

/-- Concrete searched subtree used by the witnesses: a directory holding a
subdirectory "b" with a regular file "c", a regular file "a" and a
symlink "l". -/
def wTree : FSNode :=
  .dirOk [(['b'], .dirOk [(['c'], .file 8)] false), (['a'], .file 8),
    (['l'], .file 10)] false

/-- The subtree of `wTree` with the top-level enumeration order changed. -/
def wTree2 : FSNode :=
  .dirOk [(['a'], .file 8), (['l'], .file 10),
    (['b'], .dirOk [(['c'], .file 8)] false)] false

/-- Frame property of the shared path buffer: a call leaves the caller's
prefix in place, every intermediate buffer state included. -/
theorem walkfd_frame_all :
    (∀ node root buf symlinks silent hs,
        buf <+: (walkfd node root buf symlinks silent hs).buf ∧
        ∀ s ∈ (walkfd node root buf symlinks silent hs).snaps, buf <+: s) ∧
    (∀ l root pathLen buf symlinks silent hs, pathLen ≤ buf.length →
        buf.take pathLen <+: (walkfdList l root pathLen buf symlinks silent hs).buf ∧
        ∀ s ∈ (walkfdList l root pathLen buf symlinks silent hs).snaps,
          buf.take pathLen <+: s) := by
  have hfile : ∀ d, ∀ root buf symlinks silent hs,
      buf <+: (walkfd (.file d) root buf symlinks silent hs).buf ∧
      ∀ s ∈ (walkfd (.file d) root buf symlinks silent hs).snaps, buf <+: s := by
    intro d root buf symlinks silent hs
    simp [walkfd]
  have hfail : ∀ e, ∀ root buf symlinks silent hs,
      buf <+: (walkfd (.dirFail e) root buf symlinks silent hs).buf ∧
      ∀ s ∈ (walkfd (.dirFail e) root buf symlinks silent hs).snaps, buf <+: s := by
    intro e root buf symlinks silent hs
    rcases eq_or_ne e EACCES with h | h <;> simp [walkfd, h]
  have hok : ∀ l rf,
      (∀ root pathLen buf symlinks silent hs, pathLen ≤ buf.length →
        buf.take pathLen <+: (walkfdList l root pathLen buf symlinks silent hs).buf ∧
        ∀ s ∈ (walkfdList l root pathLen buf symlinks silent hs).snaps,
          buf.take pathLen <+: s) →
      ∀ root buf symlinks silent hs,
        buf <+: (walkfd (.dirOk l rf) root buf symlinks silent hs).buf ∧
        ∀ s ∈ (walkfd (.dirOk l rf) root buf symlinks silent hs).snaps, buf <+: s := by
    intro l rf IH root buf symlinks silent hs
    obtain ⟨h1, h2⟩ := IH root buf.length buf symlinks silent hs (le_refl _)
    rw [List.take_length] at h1 h2
    simp only [walkfd]
    split_ifs <;> exact ⟨h1, h2⟩
  have hnil : ∀ root pathLen buf symlinks silent hs, pathLen ≤ buf.length →
      buf.take pathLen <+: (walkfdList [] root pathLen buf symlinks silent hs).buf ∧
      ∀ s ∈ (walkfdList [] root pathLen buf symlinks silent hs).snaps,
        buf.take pathLen <+: s := by
    intro root pathLen buf symlinks silent hs _
    simp [walkfdList, List.take_prefix]
  have hcons : ∀ n node rest,
      (∀ root buf symlinks silent hs,
        buf <+: (walkfd node root buf symlinks silent hs).buf ∧
        ∀ s ∈ (walkfd node root buf symlinks silent hs).snaps, buf <+: s) →
      (∀ root pathLen buf symlinks silent hs, pathLen ≤ buf.length →
        buf.take pathLen <+: (walkfdList rest root pathLen buf symlinks silent hs).buf ∧
        ∀ s ∈ (walkfdList rest root pathLen buf symlinks silent hs).snaps,
          buf.take pathLen <+: s) →
      ∀ root pathLen buf symlinks silent hs, pathLen ≤ buf.length →
        buf.take pathLen <+:
          (walkfdList ((n, node) :: rest) root pathLen buf symlinks silent hs).buf ∧
        ∀ s ∈ (walkfdList ((n, node) :: rest) root pathLen buf symlinks silent hs).snaps,
          buf.take pathLen <+: s := by
    intro n node rest Pn Qr root pathLen buf symlinks silent hs hlen
    have hlt : (buf.take pathLen).length = pathLen := by
      simp [List.length_take]; omega
    have hb1 : buf.take pathLen <+: buf.take pathLen ++ '/' :: n :=
      List.prefix_append _ _
    have hlen1 : pathLen ≤ (buf.take pathLen ++ '/' :: n).length := by
      simp [hlt]
    have htake1 : (buf.take pathLen ++ '/' :: n).take pathLen = buf.take pathLen := by
      rw [List.take_append_of_le_length (by omega)]
      rw [List.take_take]; congr 1; omega
    by_cases h0 : node.dtype = DT_UNKNOWN
    · simp only [walkfdList, if_pos h0]
      refine ⟨hb1, ?_⟩
      intro s hsm
      rcases List.mem_singleton.mp hsm with rfl
      exact hb1
    · by_cases hdot : node.dtype = DT_DIR ∧ (n = dotName ∨ n = ddotName)
      · obtain ⟨k1, k2⟩ := Qr root pathLen (buf.take pathLen ++ '/' :: n)
          symlinks silent hs hlen1
        rw [htake1] at k1 k2
        simp only [walkfdList, if_neg h0, if_pos hdot]
        refine ⟨k1, ?_⟩
        intro s hsm
        rcases List.mem_cons.mp hsm with rfl | hsm
        · exact hb1
        · exact k2 s hsm
      · by_cases hdir : node.dtype = DT_DIR
        · obtain ⟨p1, p2⟩ := Pn root (buf.take pathLen ++ '/' :: n) symlinks silent hs
          by_cases hc :
              (walkfd node root (buf.take pathLen ++ '/' :: n) symlinks silent hs).w.ret ≠ 0
          · simp only [walkfdList, if_neg h0, if_neg hdot, if_pos hdir, if_pos hc]
            refine ⟨hb1.trans p1, ?_⟩
            intro s hsm
            rcases List.mem_cons.mp hsm with rfl | hsm
            · exact hb1
            · exact hb1.trans (p2 s hsm)
          · have hlenc : pathLen ≤
                (walkfd node root (buf.take pathLen ++ '/' :: n) symlinks silent hs).buf.length :=
              le_trans hlen1 p1.length_le
            have htakec :
                (walkfd node root (buf.take pathLen ++ '/' :: n) symlinks silent hs).buf.take
                  pathLen = buf.take pathLen := by
              obtain ⟨t, ht⟩ := p1
              rw [← ht, List.take_append_of_le_length (by omega), htake1]
            obtain ⟨k1, k2⟩ := Qr root pathLen
              (walkfd node root (buf.take pathLen ++ '/' :: n) symlinks silent hs).buf
              symlinks silent hs hlenc
            rw [htakec] at k1 k2
            simp only [walkfdList, if_neg h0, if_neg hdot, if_pos hdir, if_neg hc]
            refine ⟨k1, ?_⟩
            intro s hsm
            rcases List.mem_cons.mp hsm with rfl | hsm
            · exact hb1
            · rcases List.mem_append.mp hsm with hsm | hsm
              · exact hb1.trans (p2 s hsm)
              · exact k2 s hsm
        · obtain ⟨k1, k2⟩ := Qr root pathLen (buf.take pathLen ++ '/' :: n)
            symlinks silent hs hlen1
          rw [htake1] at k1 k2
          have hfin : ∀ s ∈ (buf.take pathLen ++ '/' :: n) ::
              (walkfdList rest root pathLen (buf.take pathLen ++ '/' :: n)
                symlinks silent hs).snaps, buf.take pathLen <+: s := by
            intro s hsm
            rcases List.mem_cons.mp hsm with rfl | hsm
            · exact hb1
            · exact k2 s hsm
          by_cases hreg : node.dtype = DT_REG ∨ (node.dtype = DT_LNK ∧ symlinks = true)
          · by_cases hmem : buf.take pathLen ++ '/' :: n ∈ hs
            · simp only [walkfdList, if_neg h0, if_neg hdot, if_neg hdir, if_pos hreg,
                if_pos hmem]
              exact ⟨k1, hfin⟩
            · simp only [walkfdList, if_neg h0, if_neg hdot, if_neg hdir, if_pos hreg,
                if_neg hmem]
              exact ⟨k1, hfin⟩
          · simp only [walkfdList, if_neg h0, if_neg hdot, if_neg hdir, if_neg hreg]
            exact ⟨k1, hfin⟩
  exact ⟨fsInd _ _ hfile hfail hok hnil hcons, fsIndL _ _ hfile hfail hok hnil hcons⟩

/-- The buffer-reuse walker and the naive-concatenation walker have identical
observable behaviour (same output, same membership queries, same diagnostics,
same result). -/
theorem walkfd_eq_walkCat_all :
    (∀ node root buf symlinks silent hs,
        (walkfd node root buf symlinks silent hs).w =
          walkCat node root buf symlinks silent hs) ∧
    (∀ l root pathLen buf symlinks silent hs, pathLen ≤ buf.length →
        (walkfdList l root pathLen buf symlinks silent hs).w =
          walkCatList l root (buf.take pathLen) symlinks silent hs) := by
  have hfile : ∀ d, ∀ root buf symlinks silent hs,
      (walkfd (.file d) root buf symlinks silent hs).w =
        walkCat (.file d) root buf symlinks silent hs := by
    intro d root buf symlinks silent hs
    simp [walkfd, walkCat]
  have hfail : ∀ e, ∀ root buf symlinks silent hs,
      (walkfd (.dirFail e) root buf symlinks silent hs).w =
        walkCat (.dirFail e) root buf symlinks silent hs := by
    intro e root buf symlinks silent hs
    rcases eq_or_ne e EACCES with h | h <;> simp [walkfd, walkCat, h]
  have hok : ∀ l rf,
      (∀ root pathLen buf symlinks silent hs, pathLen ≤ buf.length →
        (walkfdList l root pathLen buf symlinks silent hs).w =
          walkCatList l root (buf.take pathLen) symlinks silent hs) →
      ∀ root buf symlinks silent hs,
        (walkfd (.dirOk l rf) root buf symlinks silent hs).w =
          walkCat (.dirOk l rf) root buf symlinks silent hs := by
    intro l rf IH root buf symlinks silent hs
    have hIH := IH root buf.length buf symlinks silent hs (le_refl _)
    rw [List.take_length] at hIH
    simp only [walkfd, walkCat, apply_ite BufOut.w, hIH]
  have hnil : ∀ root pathLen buf symlinks silent hs, pathLen ≤ buf.length →
      (walkfdList [] root pathLen buf symlinks silent hs).w =
        walkCatList [] root (buf.take pathLen) symlinks silent hs := by
    intro root pathLen buf symlinks silent hs _
    simp [walkfdList, walkCatList]
  have hcons : ∀ n node rest,
      (∀ root buf symlinks silent hs,
        (walkfd node root buf symlinks silent hs).w =
          walkCat node root buf symlinks silent hs) →
      (∀ root pathLen buf symlinks silent hs, pathLen ≤ buf.length →
        (walkfdList rest root pathLen buf symlinks silent hs).w =
          walkCatList rest root (buf.take pathLen) symlinks silent hs) →
      ∀ root pathLen buf symlinks silent hs, pathLen ≤ buf.length →
        (walkfdList ((n, node) :: rest) root pathLen buf symlinks silent hs).w =
          walkCatList ((n, node) :: rest) root (buf.take pathLen)
            symlinks silent hs := by
    intro n node rest Pn Qr root pathLen buf symlinks silent hs hlen
    have hlt : (buf.take pathLen).length = pathLen := by
      simp [List.length_take]; omega
    have hlen1 : pathLen ≤ (buf.take pathLen ++ '/' :: n).length := by
      simp [hlt]
    have htake1 : (buf.take pathLen ++ '/' :: n).take pathLen = buf.take pathLen := by
      rw [List.take_append_of_le_length (by omega)]
      rw [List.take_take]; congr 1; omega
    by_cases h0 : node.dtype = DT_UNKNOWN
    · simp only [walkfdList, walkCatList, if_pos h0]
    · by_cases hdot : node.dtype = DT_DIR ∧ (n = dotName ∨ n = ddotName)
      · have hQ := Qr root pathLen (buf.take pathLen ++ '/' :: n)
          symlinks silent hs hlen1
        rw [htake1] at hQ
        simp only [walkfdList, walkCatList, if_neg h0, if_pos hdot]
        exact hQ
      · by_cases hdir : node.dtype = DT_DIR
        · have hP := Pn root (buf.take pathLen ++ '/' :: n) symlinks silent hs
          by_cases hc :
              (walkfd node root (buf.take pathLen ++ '/' :: n)
                symlinks silent hs).w.ret ≠ 0
          · have hc' : (walkCat node root (buf.take pathLen ++ '/' :: n)
                symlinks silent hs).ret ≠ 0 := by rw [← hP]; exact hc
            simp only [walkfdList, walkCatList, if_neg h0, if_neg hdot, if_pos hdir,
              if_pos hc, if_pos hc']
            exact hP
          · have hc' : ¬(walkCat node root (buf.take pathLen ++ '/' :: n)
                symlinks silent hs).ret ≠ 0 := by rw [← hP]; exact hc
            have hpre : buf.take pathLen ++ '/' :: n <+:
                (walkfd node root (buf.take pathLen ++ '/' :: n)
                  symlinks silent hs).buf :=
              (walkfd_frame_all.1 node root (buf.take pathLen ++ '/' :: n)
                symlinks silent hs).1
            have hlenc : pathLen ≤
                (walkfd node root (buf.take pathLen ++ '/' :: n)
                  symlinks silent hs).buf.length :=
              le_trans hlen1 hpre.length_le
            have htakec :
                (walkfd node root (buf.take pathLen ++ '/' :: n)
                  symlinks silent hs).buf.take pathLen = buf.take pathLen := by
              obtain ⟨t, ht⟩ := hpre
              rw [← ht, List.take_append_of_le_length (by omega), htake1]
            have hQ := Qr root pathLen
              (walkfd node root (buf.take pathLen ++ '/' :: n) symlinks silent hs).buf
              symlinks silent hs hlenc
            rw [htakec] at hQ
            simp only [walkfdList, walkCatList, if_neg h0, if_neg hdot, if_pos hdir,
              if_neg hc, if_neg hc']
            rw [hP, hQ]
        · have hQ := Qr root pathLen (buf.take pathLen ++ '/' :: n)
            symlinks silent hs hlen1
          rw [htake1] at hQ
          by_cases hreg : node.dtype = DT_REG ∨ (node.dtype = DT_LNK ∧ symlinks = true)
          · by_cases hmem : buf.take pathLen ++ '/' :: n ∈ hs
            · simp only [walkfdList, walkCatList, if_neg h0, if_neg hdot, if_neg hdir,
                if_pos hreg, if_pos hmem]
              rw [hQ]
            · simp only [walkfdList, walkCatList, if_neg h0, if_neg hdot, if_neg hdir,
                if_pos hreg, if_neg hmem]
              rw [hQ]
          · simp only [walkfdList, walkCatList, if_neg h0, if_neg hdot, if_neg hdir,
              if_neg hreg]
            exact hQ
  exact ⟨fsInd _ _ hfile hfail hok hnil hcons, fsIndL _ _ hfile hfail hok hnil hcons⟩

/-- The walker's result is binary: 0 or -1. -/
theorem walkCat_ret_all :
    (∀ node root rel symlinks silent hs,
        (walkCat node root rel symlinks silent hs).ret = 0 ∨
        (walkCat node root rel symlinks silent hs).ret = -1) ∧
    (∀ l root rel symlinks silent hs,
        (walkCatList l root rel symlinks silent hs).ret = 0 ∨
        (walkCatList l root rel symlinks silent hs).ret = -1) := by
  have hfile : ∀ d, ∀ root rel symlinks silent hs,
      (walkCat (.file d) root rel symlinks silent hs).ret = 0 ∨
      (walkCat (.file d) root rel symlinks silent hs).ret = -1 := by
    intro d root rel symlinks silent hs
    simp [walkCat]
  have hfail : ∀ e, ∀ root rel symlinks silent hs,
      (walkCat (.dirFail e) root rel symlinks silent hs).ret = 0 ∨
      (walkCat (.dirFail e) root rel symlinks silent hs).ret = -1 := by
    intro e root rel symlinks silent hs
    rcases eq_or_ne e EACCES with h | h <;> simp [walkCat, h]
  have hok : ∀ l rf,
      (∀ root rel symlinks silent hs,
        (walkCatList l root rel symlinks silent hs).ret = 0 ∨
        (walkCatList l root rel symlinks silent hs).ret = -1) →
      ∀ root rel symlinks silent hs,
        (walkCat (.dirOk l rf) root rel symlinks silent hs).ret = 0 ∨
        (walkCat (.dirOk l rf) root rel symlinks silent hs).ret = -1 := by
    intro l rf IH root rel symlinks silent hs
    rcases IH root rel symlinks silent hs with h | h <;>
      cases rf <;> simp [walkCat, h]
  have hnil : ∀ root rel symlinks silent hs,
      (walkCatList [] root rel symlinks silent hs).ret = 0 ∨
      (walkCatList [] root rel symlinks silent hs).ret = -1 := by
    intro root rel symlinks silent hs
    simp [walkCatList]
  have hcons : ∀ n node rest,
      (∀ root rel symlinks silent hs,
        (walkCat node root rel symlinks silent hs).ret = 0 ∨
        (walkCat node root rel symlinks silent hs).ret = -1) →
      (∀ root rel symlinks silent hs,
        (walkCatList rest root rel symlinks silent hs).ret = 0 ∨
        (walkCatList rest root rel symlinks silent hs).ret = -1) →
      ∀ root rel symlinks silent hs,
        (walkCatList ((n, node) :: rest) root rel symlinks silent hs).ret = 0 ∨
        (walkCatList ((n, node) :: rest) root rel symlinks silent hs).ret = -1 := by
    intro n node rest Pn Qr root rel symlinks silent hs
    by_cases h0 : node.dtype = DT_UNKNOWN
    · simp [walkCatList, if_pos h0]
    · by_cases hdot : node.dtype = DT_DIR ∧ (n = dotName ∨ n = ddotName)
      · simp only [walkCatList, if_neg h0, if_pos hdot]
        exact Qr root rel symlinks silent hs
      · by_cases hdir : node.dtype = DT_DIR
        · by_cases hc : (walkCat node root (rel ++ '/' :: n)
              symlinks silent hs).ret ≠ 0
          · simp only [walkCatList, if_neg h0, if_neg hdot, if_pos hdir, if_pos hc]
            exact Pn root (rel ++ '/' :: n) symlinks silent hs
          · simp only [walkCatList, if_neg h0, if_neg hdot, if_pos hdir, if_neg hc]
            exact Qr root rel symlinks silent hs
        · by_cases hreg : node.dtype = DT_REG ∨
              (node.dtype = DT_LNK ∧ symlinks = true)
          · by_cases hmem : rel ++ '/' :: n ∈ hs
            · simp only [walkCatList, if_neg h0, if_neg hdot, if_neg hdir,
                if_pos hreg, if_pos hmem]
              exact Qr root rel symlinks silent hs
            · simp only [walkCatList, if_neg h0, if_neg hdot, if_neg hdir,
                if_pos hreg, if_neg hmem]
              exact Qr root rel symlinks silent hs
          · simp only [walkCatList, if_neg h0, if_neg hdot, if_neg hdir, if_neg hreg]
            exact Qr root rel symlinks silent hs
  exact ⟨fsInd _ _ hfile hfail hok hnil hcons, fsIndL _ _ hfile hfail hok hnil hcons⟩

/-- Every printed line is exactly a failed membership query, root-qualified:
the output is the filter of the submitted queries by absence from the index,
prefixed with the root. -/
theorem walkCat_out_all :
    (∀ node root rel symlinks silent hs,
        (walkCat node root rel symlinks silent hs).out =
          ((walkCat node root rel symlinks silent hs).tests.filter fun p =>
            decide (p ∉ hs)).map (fun p => root ++ p)) ∧
    (∀ l root rel symlinks silent hs,
        (walkCatList l root rel symlinks silent hs).out =
          ((walkCatList l root rel symlinks silent hs).tests.filter fun p =>
            decide (p ∉ hs)).map (fun p => root ++ p)) := by
  have hfile : ∀ d, ∀ root rel symlinks silent hs,
      (walkCat (.file d) root rel symlinks silent hs).out =
        ((walkCat (.file d) root rel symlinks silent hs).tests.filter fun p =>
          decide (p ∉ hs)).map (fun p => root ++ p) := by
    intro d root rel symlinks silent hs
    simp [walkCat]
  have hfail : ∀ e, ∀ root rel symlinks silent hs,
      (walkCat (.dirFail e) root rel symlinks silent hs).out =
        ((walkCat (.dirFail e) root rel symlinks silent hs).tests.filter fun p =>
          decide (p ∉ hs)).map (fun p => root ++ p) := by
    intro e root rel symlinks silent hs
    rcases eq_or_ne e EACCES with h | h <;> simp [walkCat, h]
  have hok : ∀ l rf,
      (∀ root rel symlinks silent hs,
        (walkCatList l root rel symlinks silent hs).out =
          ((walkCatList l root rel symlinks silent hs).tests.filter fun p =>
            decide (p ∉ hs)).map (fun p => root ++ p)) →
      ∀ root rel symlinks silent hs,
        (walkCat (.dirOk l rf) root rel symlinks silent hs).out =
          ((walkCat (.dirOk l rf) root rel symlinks silent hs).tests.filter fun p =>
            decide (p ∉ hs)).map (fun p => root ++ p) := by
    intro l rf IH root rel symlinks silent hs
    have h := IH root rel symlinks silent hs
    simp only [walkCat]
    split_ifs <;> simpa using h
  have hnil : ∀ root rel symlinks silent hs,
      (walkCatList [] root rel symlinks silent hs).out =
        ((walkCatList [] root rel symlinks silent hs).tests.filter fun p =>
          decide (p ∉ hs)).map (fun p => root ++ p) := by
    intro root rel symlinks silent hs
    simp [walkCatList]
  have hcons : ∀ n node rest,
      (∀ root rel symlinks silent hs,
        (walkCat node root rel symlinks silent hs).out =
          ((walkCat node root rel symlinks silent hs).tests.filter fun p =>
            decide (p ∉ hs)).map (fun p => root ++ p)) →
      (∀ root rel symlinks silent hs,
        (walkCatList rest root rel symlinks silent hs).out =
          ((walkCatList rest root rel symlinks silent hs).tests.filter fun p =>
            decide (p ∉ hs)).map (fun p => root ++ p)) →
      ∀ root rel symlinks silent hs,
        (walkCatList ((n, node) :: rest) root rel symlinks silent hs).out =
          ((walkCatList ((n, node) :: rest) root rel symlinks silent hs).tests.filter
            fun p => decide (p ∉ hs)).map (fun p => root ++ p) := by
    intro n node rest Pn Qr root rel symlinks silent hs
    by_cases h0 : node.dtype = DT_UNKNOWN
    · simp [walkCatList, if_pos h0]
    · by_cases hdot : node.dtype = DT_DIR ∧ (n = dotName ∨ n = ddotName)
      · simp only [walkCatList, if_neg h0, if_pos hdot]
        exact Qr root rel symlinks silent hs
      · by_cases hdir : node.dtype = DT_DIR
        · by_cases hc : (walkCat node root (rel ++ '/' :: n)
              symlinks silent hs).ret ≠ 0
          · simp only [walkCatList, if_neg h0, if_neg hdot, if_pos hdir, if_pos hc]
            exact Pn root (rel ++ '/' :: n) symlinks silent hs
          · simp only [walkCatList, if_neg h0, if_neg hdot, if_pos hdir, if_neg hc]
            simp only [List.filter_append, List.map_append]
            rw [Pn root (rel ++ '/' :: n) symlinks silent hs,
              Qr root rel symlinks silent hs]
        · by_cases hreg : node.dtype = DT_REG ∨
              (node.dtype = DT_LNK ∧ symlinks = true)
          · by_cases hmem : rel ++ '/' :: n ∈ hs
            · simp only [walkCatList, if_neg h0, if_neg hdot, if_neg hdir,
                if_pos hreg, if_pos hmem]
              simp [hmem]
              simpa using Qr root rel symlinks silent hs
            · simp only [walkCatList, if_neg h0, if_neg hdot, if_neg hdir,
                if_pos hreg, if_neg hmem]
              simp [hmem]
              simpa using Qr root rel symlinks silent hs
          · simp only [walkCatList, if_neg h0, if_neg hdot, if_neg hdir, if_neg hreg]
            exact Qr root rel symlinks silent hs
  exact ⟨fsInd _ _ hfile hfail hok hnil hcons, fsIndL _ _ hfile hfail hok hnil hcons⟩

/-- Unfolding of `reachL` at a cons cell. -/
theorem reachL_cons (n : Str) (node : FSNode) (rest : List (Str × FSNode))
    (rel : Str) (symlinks : Bool) :
    reachL ((n, node) :: rest) rel symlinks =
      (if reachPred symlinks (rel ++ '/' :: n, node.dtype) then [rel ++ '/' :: n]
        else []) ++
      (if node.dtype = DT_DIR ∧ n ≠ dotName ∧ n ≠ ddotName then
        reachFiles node (rel ++ '/' :: n) symlinks else []) ++
      reachL rest rel symlinks := by
  by_cases hd : node.dtype = DT_DIR ∧ n ≠ dotName ∧ n ≠ ddotName
  · simp only [reachL, reachFiles, entriesOfL, if_pos hd, List.filter_append,
      List.map_append, List.filter_cons]
    obtain ⟨hd1, -, -⟩ := hd
    rw [hd1]
    by_cases hp : reachPred symlinks (rel ++ '/' :: n, DT_DIR)
    · simp [hp]
    · simp [hp]
  · simp only [reachL, reachFiles, entriesOfL, if_neg hd, List.filter_append,
      List.map_append, List.filter_cons]
    by_cases hp : reachPred symlinks (rel ++ '/' :: n, node.dtype)
    · simp [hp]
    · simp [hp]

/-- `reachFiles` on an openable directory is `reachL` on its entries. -/
theorem reachFiles_dirOk (l : List (Str × FSNode)) (rf : Bool) (rel : Str)
    (symlinks : Bool) :
    reachFiles (.dirOk l rf) rel symlinks = reachL l rel symlinks := by
  simp [reachFiles, reachL, entriesOfN]

/-- `reachFiles` of a non-openable or non-directory node is empty. -/
theorem reachFiles_base (rel : Str) (symlinks : Bool) :
    (∀ d, reachFiles (.file d) rel symlinks = []) ∧
    (∀ e, reachFiles (.dirFail e) rel symlinks = []) := by
  constructor <;> intro x <;> simp [reachFiles, entriesOfN]

/-- `reachL` on the empty entry list is empty. -/
theorem reachL_nil (rel : Str) (symlinks : Bool) : reachL [] rel symlinks = [] := by
  simp [reachL, entriesOfL]

/-- On a walk that completes successfully, the sequence of membership queries
is exactly the traversal-ordered list of reachable reportable entries. -/
theorem walkCat_tests_all :
    (∀ node root rel symlinks silent hs,
        (walkCat node root rel symlinks silent hs).ret = 0 →
        (walkCat node root rel symlinks silent hs).tests =
          reachFiles node rel symlinks) ∧
    (∀ l root rel symlinks silent hs,
        (walkCatList l root rel symlinks silent hs).ret = 0 →
        (walkCatList l root rel symlinks silent hs).tests =
          reachL l rel symlinks) := by
  have hfile : ∀ d, ∀ root rel symlinks silent hs,
      (walkCat (.file d) root rel symlinks silent hs).ret = 0 →
      (walkCat (.file d) root rel symlinks silent hs).tests =
        reachFiles (.file d) rel symlinks := by
    intro d root rel symlinks silent hs h
    simp [walkCat] at h
  have hfail : ∀ e, ∀ root rel symlinks silent hs,
      (walkCat (.dirFail e) root rel symlinks silent hs).ret = 0 →
      (walkCat (.dirFail e) root rel symlinks silent hs).tests =
        reachFiles (.dirFail e) rel symlinks := by
    intro e root rel symlinks silent hs h
    rcases eq_or_ne e EACCES with he | he
    · simp [walkCat, he, (reachFiles_base rel symlinks).2]
    · simp [walkCat, he] at h
  have hok : ∀ l rf,
      (∀ root rel symlinks silent hs,
        (walkCatList l root rel symlinks silent hs).ret = 0 →
        (walkCatList l root rel symlinks silent hs).tests =
          reachL l rel symlinks) →
      ∀ root rel symlinks silent hs,
        (walkCat (.dirOk l rf) root rel symlinks silent hs).ret = 0 →
        (walkCat (.dirOk l rf) root rel symlinks silent hs).tests =
          reachFiles (.dirOk l rf) rel symlinks := by
    intro l rf IH root rel symlinks silent hs h
    rw [reachFiles_dirOk]
    by_cases hr : (walkCatList l root rel symlinks silent hs).ret ≠ 0
    · rw [walkCat] at h
      simp only [if_pos hr] at h
      exact absurd h hr
    · cases rf with
      | true =>
          rw [walkCat] at h
          simp only [if_neg hr] at h
          simp at h
      | false =>
          have hft : ¬(false = true) := by simp
          rw [walkCat] at h ⊢
          rw [if_neg hr, if_neg hft] at h ⊢
          exact IH root rel symlinks silent hs h
  have hnil : ∀ root rel symlinks silent hs,
      (walkCatList [] root rel symlinks silent hs).ret = 0 →
      (walkCatList [] root rel symlinks silent hs).tests =
        reachL [] rel symlinks := by
    intro root rel symlinks silent hs _
    simp [walkCatList, reachL_nil]
  have hcons : ∀ n node rest,
      (∀ root rel symlinks silent hs,
        (walkCat node root rel symlinks silent hs).ret = 0 →
        (walkCat node root rel symlinks silent hs).tests =
          reachFiles node rel symlinks) →
      (∀ root rel symlinks silent hs,
        (walkCatList rest root rel symlinks silent hs).ret = 0 →
        (walkCatList rest root rel symlinks silent hs).tests =
          reachL rest rel symlinks) →
      ∀ root rel symlinks silent hs,
        (walkCatList ((n, node) :: rest) root rel symlinks silent hs).ret = 0 →
        (walkCatList ((n, node) :: rest) root rel symlinks silent hs).tests =
          reachL ((n, node) :: rest) rel symlinks := by
    intro n node rest Pn Qr root rel symlinks silent hs h
    rw [reachL_cons]
    by_cases h0 : node.dtype = DT_UNKNOWN
    · simp only [walkCatList, if_pos h0] at h
      exact absurd h (by decide)
    · by_cases hdot : node.dtype = DT_DIR ∧ (n = dotName ∨ n = ddotName)
      · simp only [walkCatList, if_neg h0, if_pos hdot] at h ⊢
        have hp : reachPred symlinks (rel ++ '/' :: n, node.dtype) = false := by
          simp [reachPred, hdot.1, DT_DIR, DT_REG, DT_LNK]
        have hnd : ¬(node.dtype = DT_DIR ∧ n ≠ dotName ∧ n ≠ ddotName) := by
          rintro ⟨-, hn1, hn2⟩
          rcases hdot.2 with hh | hh
          · exact hn1 hh
          · exact hn2 hh
        rw [if_neg (by simp [hp]), if_neg hnd]
        simpa using Qr root rel symlinks silent hs h
      · by_cases hdir : node.dtype = DT_DIR
        · have hnd : node.dtype = DT_DIR ∧ n ≠ dotName ∧ n ≠ ddotName := by
            refine ⟨hdir, ?_, ?_⟩ <;> intro hh <;> exact hdot ⟨hdir, by simp [hh]⟩
          have hp : reachPred symlinks (rel ++ '/' :: n, node.dtype) = false := by
            simp [reachPred, hdir, DT_DIR, DT_REG, DT_LNK]
          by_cases hc : (walkCat node root (rel ++ '/' :: n)
              symlinks silent hs).ret ≠ 0
          · simp only [walkCatList, if_neg h0, if_neg hdot, if_pos hdir,
              if_pos hc] at h
            exact absurd h hc
          · simp only [walkCatList, if_neg h0, if_neg hdot, if_pos hdir,
              if_neg hc] at h ⊢
            rw [if_neg (by simp [hp]), if_pos hnd]
            simp only [List.nil_append]
            rw [Pn root (rel ++ '/' :: n) symlinks silent hs (by omega),
              Qr root rel symlinks silent hs (by simpa using h)]
        · by_cases hreg : node.dtype = DT_REG ∨
              (node.dtype = DT_LNK ∧ symlinks = true)
          · have hp : reachPred symlinks (rel ++ '/' :: n, node.dtype) = true := by
              rcases hreg with hh | ⟨hh, hsy⟩
              · simp [reachPred, hh, DT_REG, DT_LNK]
              · simp [reachPred, hh, hsy, DT_REG, DT_LNK]
            have hnd : ¬(node.dtype = DT_DIR ∧ n ≠ dotName ∧ n ≠ ddotName) := by
              rintro ⟨hh, -, -⟩
              exact hdir hh
            rw [if_pos (by simp [hp]), if_neg hnd]
            by_cases hmem : rel ++ '/' :: n ∈ hs
            · simp only [walkCatList, if_neg h0, if_neg hdot, if_neg hdir,
                if_pos hreg, if_pos hmem] at h ⊢
              simp only [List.nil_append, List.singleton_append]
              rw [Qr root rel symlinks silent hs (by simpa using h)]
            · simp only [walkCatList, if_neg h0, if_neg hdot, if_neg hdir,
                if_pos hreg, if_neg hmem] at h ⊢
              simp only [List.nil_append, List.singleton_append]
              rw [Qr root rel symlinks silent hs (by simpa using h)]
          · have hp : reachPred symlinks (rel ++ '/' :: n, node.dtype) = false := by
              have h1 : node.dtype ≠ DT_REG := fun hh => hreg (Or.inl hh)
              have h2 : ¬(node.dtype = DT_LNK ∧ symlinks = true) := fun hh =>
                hreg (Or.inr hh)
              simp only [reachPred]
              rcases eq_or_ne node.dtype DT_LNK with hl | hl
              · have hsy : symlinks = false := by
                  rcases Bool.eq_false_or_eq_true symlinks with hy | hy
                  · exact absurd ⟨hl, hy⟩ h2
                  · exact hy
                simp [h1, hsy]
              · simp [h1, hl]
            have hnd : ¬(node.dtype = DT_DIR ∧ n ≠ dotName ∧ n ≠ ddotName) := by
              rintro ⟨hh, -, -⟩
              exact hdir hh
            simp only [walkCatList, if_neg h0, if_neg hdot, if_neg hdir,
              if_neg hreg] at h ⊢
            rw [if_neg (by simp [hp]), if_neg hnd]
            simpa using Qr root rel symlinks silent hs h
  exact ⟨fsInd _ _ hfile hfail hok hnil hcons, fsIndL _ _ hfile hfail hok hnil hcons⟩

/-- Every membership query the walk submits — also on runs that end in a
fatal error — is the path of a reachable reportable entry. -/
theorem walkCat_tests_sub_all :
    (∀ node root rel symlinks silent hs p,
        p ∈ (walkCat node root rel symlinks silent hs).tests →
        p ∈ reachFiles node rel symlinks) ∧
    (∀ l root rel symlinks silent hs p,
        p ∈ (walkCatList l root rel symlinks silent hs).tests →
        p ∈ reachL l rel symlinks) := by
  have hfile : ∀ d, ∀ root rel symlinks silent hs p,
      p ∈ (walkCat (.file d) root rel symlinks silent hs).tests →
      p ∈ reachFiles (.file d) rel symlinks := by
    intro d root rel symlinks silent hs p hp
    simp [walkCat] at hp
  have hfail : ∀ e, ∀ root rel symlinks silent hs p,
      p ∈ (walkCat (.dirFail e) root rel symlinks silent hs).tests →
      p ∈ reachFiles (.dirFail e) rel symlinks := by
    intro e root rel symlinks silent hs p hp
    rcases eq_or_ne e EACCES with he | he <;> simp [walkCat, he] at hp
  have hok : ∀ l rf,
      (∀ root rel symlinks silent hs p,
        p ∈ (walkCatList l root rel symlinks silent hs).tests →
        p ∈ reachL l rel symlinks) →
      ∀ root rel symlinks silent hs p,
        p ∈ (walkCat (.dirOk l rf) root rel symlinks silent hs).tests →
        p ∈ reachFiles (.dirOk l rf) rel symlinks := by
    intro l rf IH root rel symlinks silent hs p hp
    rw [reachFiles_dirOk]
    rw [walkCat] at hp
    split_ifs at hp
    · exact IH root rel symlinks silent hs p hp
    · exact IH root rel symlinks silent hs p (by simpa using hp)
    · exact IH root rel symlinks silent hs p hp
  have hnil : ∀ root rel symlinks silent hs p,
      p ∈ (walkCatList [] root rel symlinks silent hs).tests →
      p ∈ reachL [] rel symlinks := by
    intro root rel symlinks silent hs p hp
    simp [walkCatList] at hp
  have hcons : ∀ n node rest,
      (∀ root rel symlinks silent hs p,
        p ∈ (walkCat node root rel symlinks silent hs).tests →
        p ∈ reachFiles node rel symlinks) →
      (∀ root rel symlinks silent hs p,
        p ∈ (walkCatList rest root rel symlinks silent hs).tests →
        p ∈ reachL rest rel symlinks) →
      ∀ root rel symlinks silent hs p,
        p ∈ (walkCatList ((n, node) :: rest) root rel symlinks silent hs).tests →
        p ∈ reachL ((n, node) :: rest) rel symlinks := by
    intro n node rest Pn Qr root rel symlinks silent hs p hp
    rw [reachL_cons]
    by_cases h0 : node.dtype = DT_UNKNOWN
    · simp only [walkCatList, if_pos h0] at hp
      simp at hp
    · by_cases hdot : node.dtype = DT_DIR ∧ (n = dotName ∨ n = ddotName)
      · simp only [walkCatList, if_neg h0, if_pos hdot] at hp
        exact List.mem_append.mpr (Or.inr (Qr root rel symlinks silent hs p hp))
      · by_cases hdir : node.dtype = DT_DIR
        · have hnd : node.dtype = DT_DIR ∧ n ≠ dotName ∧ n ≠ ddotName := by
            refine ⟨hdir, ?_, ?_⟩ <;> intro hh <;> exact hdot ⟨hdir, by simp [hh]⟩
          by_cases hc : (walkCat node root (rel ++ '/' :: n)
              symlinks silent hs).ret ≠ 0
          · simp only [walkCatList, if_neg h0, if_neg hdot, if_pos hdir,
              if_pos hc] at hp
            refine List.mem_append.mpr (Or.inl (List.mem_append.mpr (Or.inr ?_)))
            rw [if_pos hnd]
            exact Pn root (rel ++ '/' :: n) symlinks silent hs p hp
          · simp only [walkCatList, if_neg h0, if_neg hdot, if_pos hdir,
              if_neg hc] at hp
            have hp' : p ∈ (walkCat node root (rel ++ '/' :: n)
                symlinks silent hs).tests ∨
                p ∈ (walkCatList rest root rel symlinks silent hs).tests := by
              simpa using List.mem_append.mp (by simpa using hp)
            rcases hp' with hp' | hp'
            · refine List.mem_append.mpr (Or.inl (List.mem_append.mpr (Or.inr ?_)))
              rw [if_pos hnd]
              exact Pn root (rel ++ '/' :: n) symlinks silent hs p hp'
            · exact List.mem_append.mpr
                (Or.inr (Qr root rel symlinks silent hs p hp'))
        · by_cases hreg : node.dtype = DT_REG ∨
              (node.dtype = DT_LNK ∧ symlinks = true)
          · have hp1 : reachPred symlinks (rel ++ '/' :: n, node.dtype) = true := by
              rcases hreg with hh | ⟨hh, hsy⟩
              · simp [reachPred, hh, DT_REG, DT_LNK]
              · simp [reachPred, hh, hsy, DT_REG, DT_LNK]
            have hmem2 : ∀ q, q ∈ (walkCatList ((n, node) :: rest) root rel
                symlinks silent hs).tests →
                q = rel ++ '/' :: n ∨
                q ∈ (walkCatList rest root rel symlinks silent hs).tests := by
              intro q hq
              by_cases hmem : rel ++ '/' :: n ∈ hs
              · simp only [walkCatList, if_neg h0, if_neg hdot, if_neg hdir,
                  if_pos hreg, if_pos hmem] at hq
                exact List.mem_cons.mp (by simpa using hq)
              · simp only [walkCatList, if_neg h0, if_neg hdot, if_neg hdir,
                  if_pos hreg, if_neg hmem] at hq
                exact List.mem_cons.mp (by simpa using hq)
            rcases hmem2 p hp with rfl | hp'
            · refine List.mem_append.mpr (Or.inl (List.mem_append.mpr (Or.inl ?_)))
              rw [if_pos (by simp [hp1])]
              simp
            · exact List.mem_append.mpr
                (Or.inr (Qr root rel symlinks silent hs p hp'))
          · simp only [walkCatList, if_neg h0, if_neg hdot, if_neg hdir,
              if_neg hreg] at hp
            exact List.mem_append.mpr (Or.inr (Qr root rel symlinks silent hs p hp))
  exact ⟨fsInd _ _ hfile hfail hok hnil hcons, fsIndL _ _ hfile hfail hok hnil hcons⟩

/-- `netEv` of a cons. -/
theorem netEv_cons (e : HEv) (t : List HEv) :
    netEv (e :: t) = (if e = HEv.acquire then 1 else -1) + netEv t := by
  cases e <;> simp [netEv, List.count_cons] <;> omega

/-- `peakEv` of a cons. -/
theorem peakEv_cons (e : HEv) (u : List HEv) :
    peakEv (e :: u) = max 0 ((if e = HEv.acquire then 1 else -1) + peakEv u) := by
  simp [peakEv]

/-- `netEv` distributes over append. -/
theorem netEv_append (s t : List HEv) : netEv (s ++ t) = netEv s + netEv t := by
  simp [netEv, List.count_append]
  omega

/-- `peakEv` is nonnegative. -/
theorem peakEv_nonneg (t : List HEv) : 0 ≤ peakEv t := by
  induction t with
  | nil => simp [peakEv]
  | cons e t ih => simp [peakEv]

/-- `peakEv` over an append. -/
theorem peakEv_append (s t : List HEv) :
    peakEv (s ++ t) = max (peakEv s) (netEv s + peakEv t) := by
  induction s with
  | nil =>
      simp only [List.nil_append, peakEv, netEv, List.count_nil]
      have := peakEv_nonneg t
      simp only [Int.max_def]
      split_ifs <;> omega
  | cons e s ih =>
      simp only [List.cons_append, peakEv, netEv_cons, List.append_eq]
      rw [ih]
      have h1 := peakEv_nonneg s
      have h2 := peakEv_nonneg t
      simp only [Int.max_def]
      split_ifs <;> omega

/-- A trace's net handle count is at most its peak. -/
theorem netEv_le_peakEv (t : List HEv) : netEv t ≤ peakEv t := by
  induction t with
  | nil => simp [netEv, peakEv]
  | cons e t ih =>
      rw [netEv_cons]
      simp only [peakEv, Int.max_def]
      split_ifs <;> omega

/-- The net handle count after any prefix of a trace is at most the trace's
peak. -/
theorem netEv_prefix_le (s t : List HEv) (h : s <+: t) : netEv s ≤ peakEv t := by
  obtain ⟨u, rfl⟩ := h
  rw [peakEv_append]
  exact le_trans (netEv_le_peakEv s) (le_max_left _ _)

/-- Wrapping a balanced child trace in its open/close pair keeps it balanced
and raises the peak by exactly the handle the pair holds. -/
theorem wrapEv_bound (node : FSNode) (t : List HEv) (h1 : netEv t = 0)
    (h2 : peakEv t ≤ (hBound node : Int)) :
    netEv (wrapEv node t) = 0 ∧ peakEv (wrapEv node t) ≤ (heightN node : Int) := by
  cases node with
  | file d => exact ⟨h1, le_trans h2 (by simp [hBound, heightN])⟩
  | dirFail e => exact ⟨h1, le_trans h2 (by simp [hBound, heightN])⟩
  | dirOk l rf =>
      have hrel : netEv [HEv.release] = -1 := by simp [netEv]
      have hrelp : peakEv [HEv.release] = 0 := by simp [peakEv]
      have hcn : wrapEv (FSNode.dirOk l rf) t =
          HEv.acquire :: (t ++ [HEv.release]) := rfl
      constructor
      · rw [hcn, netEv_cons, netEv_append, h1, hrel]
        simp
      · rw [hcn, peakEv_cons, peakEv_append, h1, hrelp]
        have h3 := peakEv_nonneg t
        have h4 : (heightN (.dirOk l rf) : Int) = (heightL l : Int) + 1 := by
          simp [heightN]
          omega
        rw [h4]
        simp only [hBound] at h2
        simp only [Int.max_def]
        split_ifs <;> omega

/-- The hev trace of a walk is balanced (all acquired handles are released)
and its peak is bounded by the subtree's directory depth below the current
handle. -/
theorem walkfd_hev_all :
    (∀ node root buf symlinks silent hs,
        netEv (walkfd node root buf symlinks silent hs).hev = 0 ∧
        peakEv (walkfd node root buf symlinks silent hs).hev ≤ (hBound node : Int)) ∧
    (∀ l root pathLen buf symlinks silent hs,
        netEv (walkfdList l root pathLen buf symlinks silent hs).hev = 0 ∧
        peakEv (walkfdList l root pathLen buf symlinks silent hs).hev ≤
          (heightL l : Int)) := by
  have hfile : ∀ d, ∀ root buf symlinks silent hs,
      netEv (walkfd (.file d) root buf symlinks silent hs).hev = 0 ∧
      peakEv (walkfd (.file d) root buf symlinks silent hs).hev ≤
        (hBound (.file d) : Int) := by
    intro d root buf symlinks silent hs
    simp [walkfd, netEv, peakEv]
  have hfail : ∀ e, ∀ root buf symlinks silent hs,
      netEv (walkfd (.dirFail e) root buf symlinks silent hs).hev = 0 ∧
      peakEv (walkfd (.dirFail e) root buf symlinks silent hs).hev ≤
        (hBound (.dirFail e) : Int) := by
    intro e root buf symlinks silent hs
    rcases eq_or_ne e EACCES with he | he <;> simp [walkfd, he, netEv, peakEv]
  have hok : ∀ l rf,
      (∀ root pathLen buf symlinks silent hs,
        netEv (walkfdList l root pathLen buf symlinks silent hs).hev = 0 ∧
        peakEv (walkfdList l root pathLen buf symlinks silent hs).hev ≤
          (heightL l : Int)) →
      ∀ root buf symlinks silent hs,
        netEv (walkfd (.dirOk l rf) root buf symlinks silent hs).hev = 0 ∧
        peakEv (walkfd (.dirOk l rf) root buf symlinks silent hs).hev ≤
          (hBound (.dirOk l rf) : Int) := by
    intro l rf IH root buf symlinks silent hs
    have h := IH root buf.length buf symlinks silent hs
    simp only [walkfd, hBound]
    split_ifs <;> exact h
  have hnil : ∀ root pathLen buf symlinks silent hs,
      netEv (walkfdList [] root pathLen buf symlinks silent hs).hev = 0 ∧
      peakEv (walkfdList [] root pathLen buf symlinks silent hs).hev ≤
        (heightL [] : Int) := by
    intro root pathLen buf symlinks silent hs
    simp [walkfdList, netEv, peakEv]
  have hcons : ∀ n node rest,
      (∀ root buf symlinks silent hs,
        netEv (walkfd node root buf symlinks silent hs).hev = 0 ∧
        peakEv (walkfd node root buf symlinks silent hs).hev ≤
          (hBound node : Int)) →
      (∀ root pathLen buf symlinks silent hs,
        netEv (walkfdList rest root pathLen buf symlinks silent hs).hev = 0 ∧
        peakEv (walkfdList rest root pathLen buf symlinks silent hs).hev ≤
          (heightL rest : Int)) →
      ∀ root pathLen buf symlinks silent hs,
        netEv (walkfdList ((n, node) :: rest) root pathLen buf
          symlinks silent hs).hev = 0 ∧
        peakEv (walkfdList ((n, node) :: rest) root pathLen buf
          symlinks silent hs).hev ≤ (heightL ((n, node) :: rest) : Int) := by
    intro n node rest Pn Qr root pathLen buf symlinks silent hs
    have hLcons : (heightL ((n, node) :: rest) : Int) =
        max (heightN node : Int) (heightL rest : Int) := by
      simp [heightL]
    have hrest_le : (heightL rest : Int) ≤ heightL ((n, node) :: rest) := by
      rw [hLcons]; exact le_max_right _ _
    have hnode_le : (heightN node : Int) ≤ heightL ((n, node) :: rest) := by
      rw [hLcons]; exact le_max_left _ _
    by_cases h0 : node.dtype = DT_UNKNOWN
    · simp only [walkfdList, if_pos h0]
      exact ⟨by simp [netEv], by simp [peakEv]⟩
    · by_cases hdot : node.dtype = DT_DIR ∧ (n = dotName ∨ n = ddotName)
      · simp only [walkfdList, if_neg h0, if_pos hdot]
        obtain ⟨k1, k2⟩ := Qr root pathLen (buf.take pathLen ++ '/' :: n)
          symlinks silent hs
        exact ⟨k1, le_trans k2 hrest_le⟩
      · by_cases hdir : node.dtype = DT_DIR
        · obtain ⟨p1, p2⟩ := Pn root (buf.take pathLen ++ '/' :: n)
            symlinks silent hs
          obtain ⟨w1, w2⟩ := wrapEv_bound node _ p1 p2
          by_cases hc : (walkfd node root (buf.take pathLen ++ '/' :: n)
              symlinks silent hs).w.ret ≠ 0
          · simp only [walkfdList, if_neg h0, if_neg hdot, if_pos hdir, if_pos hc]
            exact ⟨w1, le_trans w2 hnode_le⟩
          · simp only [walkfdList, if_neg h0, if_neg hdot, if_pos hdir, if_neg hc]
            obtain ⟨k1, k2⟩ := Qr root pathLen
              (walkfd node root (buf.take pathLen ++ '/' :: n)
                symlinks silent hs).buf symlinks silent hs
            constructor
            · simp [netEv_append, w1, k1]
            · rw [peakEv_append, w1]
              simp only [Int.max_def]
              split_ifs <;> omega
        · by_cases hreg : node.dtype = DT_REG ∨
              (node.dtype = DT_LNK ∧ symlinks = true)
          · obtain ⟨k1, k2⟩ := Qr root pathLen (buf.take pathLen ++ '/' :: n)
              symlinks silent hs
            by_cases hmem : buf.take pathLen ++ '/' :: n ∈ hs
            · simp only [walkfdList, if_neg h0, if_neg hdot, if_neg hdir,
                if_pos hreg, if_pos hmem]
              exact ⟨k1, le_trans k2 hrest_le⟩
            · simp only [walkfdList, if_neg h0, if_neg hdot, if_neg hdir,
                if_pos hreg, if_neg hmem]
              exact ⟨k1, le_trans k2 hrest_le⟩
          · simp only [walkfdList, if_neg h0, if_neg hdot, if_neg hdir, if_neg hreg]
            obtain ⟨k1, k2⟩ := Qr root pathLen (buf.take pathLen ++ '/' :: n)
              symlinks silent hs
            exact ⟨k1, le_trans k2 hrest_le⟩
  exact ⟨fsInd _ _ hfile hfail hok hnil hcons, fsIndL _ _ hfile hfail hok hnil hcons⟩

/-- Boolean prefix test agrees with the prefix relation. -/
theorem isPrefixOf_true_iff (l₁ l₂ : Str) :
    l₁.isPrefixOf l₂ = true ↔ l₁ <+: l₂ := List.isPrefixOf_iff_prefix

/-- When the root passes the strncmp prefix check, stripping it and putting it
back reconstructs the path. -/
theorem append_drop_of_pre (root q : Str) (h : root.isPrefixOf q = true) :
    root ++ q.drop root.length = q := by
  obtain ⟨t, rfl⟩ := (isPrefixOf_true_iff root q).mp h
  rw [List.drop_left]

/-- main's loop succeeds exactly when every supplied path passes the
root-prefix check and its walk returns 0. -/
theorem runPaths_ok_iff (fs : Str → FSNode) (root : Str)
    (symlinks silent : Bool) (hs : List Str) (paths : List Str) :
    (runPaths fs root symlinks silent hs paths).ok = true ↔
    ∀ p ∈ paths, root.isPrefixOf (stripSlash p) = true ∧
      (walkfd (fs (stripSlash p)) root ((stripSlash p).drop root.length)
        symlinks silent hs).w.ret = 0 := by
  induction paths with
  | nil => simp [runPaths]
  | cons p rest ih =>
      cases h1 : root.isPrefixOf (stripSlash p) with
      | false =>
          simp only [runPaths, if_pos h1]
          constructor
          · intro h
            simp at h
          · intro hall
            have := (hall p (List.mem_cons_self p rest)).1
            rw [h1] at this
            exact absurd this (by simp)
      | true =>
          have h1' : ¬(root.isPrefixOf (stripSlash p) = false) := by simp [h1]
          by_cases h2 : (walkfd (fs (stripSlash p)) root
              ((stripSlash p).drop root.length) symlinks silent hs).w.ret ≠ 0
          · simp only [runPaths, if_neg h1', if_pos h2]
            constructor
            · intro h
              simp at h
            · intro hall
              exact absurd (hall p (List.mem_cons_self p rest)).2 h2
          · simp only [runPaths, if_neg h1', if_neg h2]
            rw [not_not] at h2
            constructor
            · intro h
              intro q hq
              rcases List.mem_cons.mp hq with rfl | hq
              · exact ⟨h1, h2⟩
              · exact (ih.mp (by simpa using h)) q hq
            · intro hall
              have : (runPaths fs root symlinks silent hs rest).ok = true :=
                ih.mpr (fun q hq => hall q (List.mem_cons_of_mem p hq))
              simpa using this

/-- Every walker invocation made by main's loop carries a root-relative path
obtained by stripping the root prefix, and re-attaching the root reconstructs
the full path. -/
theorem runPaths_walked_wf (fs : Str → FSNode) (root : Str)
    (symlinks silent : Bool) (hs : List Str) (paths : List Str) :
    ∀ qr ∈ (runPaths fs root symlinks silent hs paths).walked,
      root ++ qr.2 = qr.1 ∧ qr.2 = qr.1.drop root.length := by
  induction paths with
  | nil =>
      intro qr h
      simp [runPaths] at h
  | cons p rest ih =>
      intro qr h
      cases h1 : root.isPrefixOf (stripSlash p) with
      | false =>
          rw [runPaths, if_pos h1] at h
          simp at h
      | true =>
          have h1' : ¬(root.isPrefixOf (stripSlash p) = false) := by simp [h1]
          have hh : root ++ (stripSlash p).drop root.length = stripSlash p ∧
              (stripSlash p).drop root.length =
                (stripSlash p).drop root.length :=
            ⟨append_drop_of_pre root (stripSlash p) h1, rfl⟩
          by_cases h2 : (walkfd (fs (stripSlash p)) root
              ((stripSlash p).drop root.length) symlinks silent hs).w.ret ≠ 0
          · rw [runPaths, if_neg h1'] at h
            simp only [if_pos h2] at h
            rcases List.mem_singleton.mp h with rfl
            exact hh
          · rw [runPaths, if_neg h1'] at h
            simp only [if_neg h2] at h
            rcases List.mem_cons.mp h with rfl | h
            · exact hh
            · exact ih qr h

/-- A supplied path that fails the root-prefix check makes main exit with
EXIT_FAILURE, and that path is never handed to the walker. -/
theorem runPaths_badpath (fs : Str → FSNode) (root : Str)
    (symlinks silent : Bool) (hs : List Str) (paths : List Str) (p : Str)
    (hmem : p ∈ paths) (hbad : root.isPrefixOf (stripSlash p) = false) :
    (runPaths fs root symlinks silent hs paths).ok = false ∧
    ∀ r, (stripSlash p, r) ∉ (runPaths fs root symlinks silent hs paths).walked := by
  induction paths with
  | nil => simp at hmem
  | cons q rest ih =>
      rcases List.mem_cons.mp hmem with rfl | hmem
      · rw [runPaths, if_pos hbad]
        exact ⟨rfl, by simp⟩
      · cases h1 : root.isPrefixOf (stripSlash q) with
        | false =>
            rw [runPaths, if_pos h1]
            exact ⟨rfl, by simp⟩
        | true =>
            have h1' : ¬(root.isPrefixOf (stripSlash q) = false) := by simp [h1]
            have hne : ∀ r, (stripSlash p, r) ≠
                (stripSlash q, (stripSlash q).drop root.length) := by
              intro r hq
              have : stripSlash p = stripSlash q := congrArg Prod.fst hq
              rw [this, h1] at hbad
              exact absurd hbad (by simp)
            by_cases h2 : (walkfd (fs (stripSlash q)) root
                ((stripSlash q).drop root.length) symlinks silent hs).w.ret ≠ 0
            · rw [runPaths, if_neg h1']
              simp only [if_pos h2]
              refine ⟨trivial, ?_⟩
              intro r hr
              exact hne r (List.mem_singleton.mp hr)
            · rw [runPaths, if_neg h1']
              simp only [if_neg h2]
              obtain ⟨k1, k2⟩ := ih hmem
              refine ⟨by simpa using k1, ?_⟩
              intro r hr
              rcases List.mem_cons.mp hr with he | hr
              · exact hne r he
              · exact k2 r hr

/-- Claim C1: on a walk that completes normally, every regular file (and,
with symlink checking enabled, every symlink) reachable under an accessible
subtree of the walk's root is submitted to the index exactly once — the query
sequence equals the traversal-ordered list of reachable reportable entries —
and the root-qualified path of such an entry is printed if and only if its
root-relative path is absent from the index. -/
theorem claim_C1 (node : FSNode) (root rel : Str) (symlinks silent : Bool)
    (hs : List Str)
    (h : (walkfd node root rel symlinks silent hs).w.ret = 0) :
    (walkfd node root rel symlinks silent hs).w.tests =
      reachFiles node rel symlinks ∧
    (walkfd node root rel symlinks silent hs).w.out =
      ((reachFiles node rel symlinks).filter fun p => decide (p ∉ hs)).map
        (fun p => root ++ p) := by
  have he := walkfd_eq_walkCat_all.1 node root rel symlinks silent hs
  rw [he] at h ⊢
  have h1 := walkCat_tests_all.1 node root rel symlinks silent hs h
  have h2 := walkCat_out_all.1 node root rel symlinks silent hs
  rw [h1] at h2
  exact ⟨h1, h2⟩

/-- Witness for C1 at a concrete tree, root and index. -/
theorem claim_C1_witness :
    (walkfd wTree wRoot wRel true false wHs).w.ret = 0 ∧
    ((walkfd wTree wRoot wRel true false wHs).w.tests =
        reachFiles wTree wRel true ∧
      (walkfd wTree wRoot wRel true false wHs).w.out =
        ((reachFiles wTree wRel true).filter fun p => decide (p ∉ wHs)).map
          (fun p => wRoot ++ p)) := by
  have hret : (walkfd wTree wRoot wRel true false wHs).w.ret = 0 := by
    simp [wTree, wRoot, wRel, wHs, walkfd, walkfdList, FSNode.dtype, DT_UNKNOWN,
      DT_DIR, DT_REG, DT_LNK, dotName, ddotName]
  exact ⟨hret, claim_C1 wTree wRoot wRel true false wHs hret⟩

/-- Claim C4: around every recursive call the child descriptor is closed on
all exit paths (`close(nextfd)` runs before the error check, and main closes
the top-level descriptor unconditionally), so the walk's handle trace is
balanced — every acquired directory handle is released — and at every point
of the walk the number of simultaneously open directory handles is bounded by
the directory depth of the tree. -/
theorem claim_C4 (node : FSNode) (root rel : Str) (symlinks silent : Bool)
    (hs : List Str) :
    netEv (wrapEv node (walkfd node root rel symlinks silent hs).hev) = 0 ∧
    ∀ p, p <+: wrapEv node (walkfd node root rel symlinks silent hs).hev →
      netEv p ≤ (heightN node : Int) := by
  obtain ⟨h1, h2⟩ := walkfd_hev_all.1 node root rel symlinks silent hs
  obtain ⟨w1, w2⟩ := wrapEv_bound node _ h1 h2
  exact ⟨w1, fun p hp => le_trans (netEv_prefix_le p _ hp) w2⟩

/-- Witness for C4: a concrete prefix of a concrete walk's handle trace. -/
theorem claim_C4_witness :
    ([HEv.acquire, HEv.acquire] <+:
      wrapEv wTree (walkfd wTree wRoot wRel true false wHs).hev) ∧
    netEv [HEv.acquire, HEv.acquire] ≤ (heightN wTree : Int) := by
  have htr : wrapEv wTree (walkfd wTree wRoot wRel true false wHs).hev =
      [HEv.acquire, HEv.acquire, HEv.release, HEv.release] := by
    have hh : (walkfd wTree wRoot wRel true false wHs).hev =
        [HEv.acquire, HEv.release] := by
      simp [wTree, wRoot, wRel, wHs, walkfd, walkfdList, FSNode.dtype,
        DT_UNKNOWN, DT_DIR, DT_REG, DT_LNK, dotName, ddotName, wrapEv]
    rw [hh]
    simp [wTree, wrapEv]
  have hp : [HEv.acquire, HEv.acquire] <+:
      wrapEv wTree (walkfd wTree wRoot wRel true false wHs).hev := by
    rw [htr]
    exact ⟨[HEv.release, HEv.release], rfl⟩
  exact ⟨hp, (claim_C4 wTree wRoot wRel true false wHs).2 _ hp⟩

/-- Claim C6: the buffer-reuse path construction of `walkfd` (writing "/" and
the entry name at the level's running offset into the one shared buffer)
submits to the index, for every entry tested, a path byte-for-byte identical
to the one produced by naive per-entry concatenation of ancestor names joined
by "/" — the two walkers' observable behaviour (queries, output, diagnostics,
result) is identical. -/
theorem claim_C6 (node : FSNode) (root alpm_path : Str)
    (symlinks silent : Bool) (hs : List Str) :
    (walkfd node root alpm_path symlinks silent hs).w =
      walkCat node root alpm_path symlinks silent hs :=
  walkfd_eq_walkCat_all.1 node root alpm_path symlinks silent hs

/-- Claim C7: a recursion level of `walkfd` entered with a path prefix of
length `L = strlen(alpm_path)` writes only at offsets `≥ L`: every content
the shared buffer takes during the call — each snapshot after an in-place
path construction — extends the caller's prefix unchanged, and so does the
buffer content at return. -/
theorem claim_C7 (node : FSNode) (root alpm_path : Str)
    (symlinks silent : Bool) (hs : List Str) :
    (∀ s ∈ (walkfd node root alpm_path symlinks silent hs).snaps,
      alpm_path <+: s) ∧
    alpm_path <+: (walkfd node root alpm_path symlinks silent hs).buf := by
  obtain ⟨h1, h2⟩ := walkfd_frame_all.1 node root alpm_path symlinks silent hs
  exact ⟨h2, h1⟩

/-- Witness for C7: a concrete snapshot of a concrete walk extends the
caller's prefix. -/
theorem claim_C7_witness :
    (['/', 's', '/', 'b'] ∈ (walkfd wTree wRoot wRel true false wHs).snaps) ∧
    wRel <+: ['/', 's', '/', 'b'] := by
  have hm : ['/', 's', '/', 'b'] ∈ (walkfd wTree wRoot wRel true false wHs).snaps := by
    simp [wTree, wRoot, wRel, wHs, walkfd, walkfdList, FSNode.dtype, DT_UNKNOWN,
      DT_DIR, DT_REG, DT_LNK, dotName, ddotName]
  exact ⟨hm, (claim_C7 wTree wRoot wRel true false wHs).1 _ hm⟩

/-- Claim C10: any supplied search path that does not start byte-for-byte
with the installation root makes the program exit with a nonzero status, and
the walker is never invoked on that path; and for every walker invocation
that does happen, the root-relative path is the remainder after the root
prefix, so prepending the root reconstructs the full path — the guarantee
the prefix check provides. -/
theorem claim_C10 (fs : Str → FSNode) (root : Str) (symlinks silent : Bool)
    (hs : List Str) (paths : List Str) :
    (∀ p ∈ paths, root.isPrefixOf (stripSlash p) = false →
      (runPaths fs root symlinks silent hs paths).ok = false ∧
      ∀ r, (stripSlash p, r) ∉ (runPaths fs root symlinks silent hs paths).walked) ∧
    (∀ qr ∈ (runPaths fs root symlinks silent hs paths).walked,
      root ++ qr.2 = qr.1 ∧ qr.2 = qr.1.drop root.length) :=
  ⟨fun p hp hbad => runPaths_badpath fs root symlinks silent hs paths p hp hbad,
    runPaths_walked_wf fs root symlinks silent hs paths⟩

/-- Witness for C10: a concrete run with one valid and one out-of-root path. -/
theorem claim_C10_witness :
    (['b', 'a', 'd'] ∈ [wRoot ++ wRel, ['b', 'a', 'd']]) ∧
    (wRoot.isPrefixOf (stripSlash ['b', 'a', 'd']) = false) ∧
    ((runPaths (fun _ => wTree) wRoot true false wHs
        [wRoot ++ wRel, ['b', 'a', 'd']]).ok = false ∧
      ∀ r, (stripSlash ['b', 'a', 'd'], r) ∉
        (runPaths (fun _ => wTree) wRoot true false wHs
          [wRoot ++ wRel, ['b', 'a', 'd']]).walked) := by
  have h1 : (['b', 'a', 'd'] : Str) ∈ [wRoot ++ wRel, ['b', 'a', 'd']] := by
    simp
  have h2 : wRoot.isPrefixOf (stripSlash ['b', 'a', 'd']) = false := by
    decide
  exact ⟨h1, h2,
    (claim_C10 (fun _ => wTree) wRoot true false wHs
      [wRoot ++ wRel, ['b', 'a', 'd']]).1 _ h1 h2⟩

/-- Claim C2: the walk's error behaviour is binary.  Opening a directory that
fails with EACCES yields a diagnostic (unless silent), nothing reportable and
success, so sibling traversal continues; any other open failure, any getdents
failure, and any unresolvable entry type return -1 immediately — a failing
child aborts the enclosing walk with no further siblings processed — the
result is always 0 or -1, and main's loop ends successfully exactly when
every supplied path passes the prefix check and its walk returns 0. -/
theorem claim_C2 (root rel : Str) (symlinks silent : Bool) (hs : List Str) :
    (walkfd (.dirFail EACCES) root rel symlinks silent hs =
      ⟨⟨[], [], if silent then [] else [permMsg root rel], 0⟩, rel, [], []⟩) ∧
    (∀ e, e ≠ EACCES →
      walkfd (.dirFail e) root rel symlinks silent hs =
        ⟨⟨[], [], [openFailMsg root rel e], -1⟩, rel, [], []⟩) ∧
    (∀ entries,
      (walkfd (.dirOk entries true) root rel symlinks silent hs).w.ret = -1) ∧
    (∀ node, (walkfd node root rel symlinks silent hs).w.ret = 0 ∨
      (walkfd node root rel symlinks silent hs).w.ret = -1) ∧
    (∀ name node rest pathLen buf, node.dtype = DT_UNKNOWN →
      walkfdList ((name, node) :: rest) root pathLen buf symlinks silent hs =
        ⟨⟨[], [], [unknownMsg root (buf.take pathLen ++ '/' :: name)], -1⟩,
          buf.take pathLen ++ '/' :: name,
          [buf.take pathLen ++ '/' :: name], []⟩) ∧
    (∀ name node rest pathLen buf, node.dtype = DT_DIR →
      ¬(name = dotName ∨ name = ddotName) →
      (walkfd node root (buf.take pathLen ++ '/' :: name)
        symlinks silent hs).w.ret ≠ 0 →
      (walkfdList ((name, node) :: rest) root pathLen buf
        symlinks silent hs).w =
        (walkfd node root (buf.take pathLen ++ '/' :: name)
          symlinks silent hs).w) ∧
    (∀ name rest pathLen buf, pathLen ≤ buf.length →
      ¬(name = dotName ∨ name = ddotName) →
      (walkfdList ((name, .dirFail EACCES) :: rest) root pathLen buf
        symlinks silent hs).w =
        ⟨(walkfdList rest root pathLen buf symlinks silent hs).w.out,
         (walkfdList rest root pathLen buf symlinks silent hs).w.tests,
         (if silent then []
           else [permMsg root (buf.take pathLen ++ '/' :: name)]) ++
           (walkfdList rest root pathLen buf symlinks silent hs).w.errs,
         (walkfdList rest root pathLen buf symlinks silent hs).w.ret⟩) ∧
    (∀ fs paths, (runPaths fs root symlinks silent hs paths).ok = true ↔
      ∀ p ∈ paths, root.isPrefixOf (stripSlash p) = true ∧
        (walkfd (fs (stripSlash p)) root ((stripSlash p).drop root.length)
          symlinks silent hs).w.ret = 0) := by
  refine ⟨?_, ?_, ?_, ?_, ?_, ?_, ?_, ?_⟩
  · simp [walkfd]
  · intro e he
    rw [walkfd, if_neg he]
  · intro entries
    have he := walkfd_eq_walkCat_all.1 (.dirOk entries true) root rel
      symlinks silent hs
    rw [he, walkCat]
    rcases walkCat_ret_all.2 entries root rel symlinks silent hs with h | h
    · simp [h]
    · simp [h]
  · intro node
    have he := walkfd_eq_walkCat_all.1 node root rel symlinks silent hs
    rw [he]
    exact walkCat_ret_all.1 node root rel symlinks silent hs
  · intro name node rest pathLen buf h0
    simp only [walkfdList, if_pos h0]
  · intro name node rest pathLen buf hdir hnd hc
    have h0 : ¬(node.dtype = DT_UNKNOWN) := by
      rw [hdir]
      simp [DT_DIR, DT_UNKNOWN]
    have hdot : ¬(node.dtype = DT_DIR ∧ (name = dotName ∨ name = ddotName)) :=
      fun hh => hnd hh.2
    simp only [walkfdList, if_neg h0, if_neg hdot, if_pos hdir, if_pos hc]
  · intro name rest pathLen buf hlen hnd
    have h0 : ¬((FSNode.dirFail EACCES).dtype = DT_UNKNOWN) := by
      simp [FSNode.dtype, DT_DIR, DT_UNKNOWN]
    have hdot : ¬((FSNode.dirFail EACCES).dtype = DT_DIR ∧
        (name = dotName ∨ name = ddotName)) := fun hh => hnd hh.2
    have hdir : (FSNode.dirFail EACCES).dtype = DT_DIR := rfl
    have hperm : walkfd (.dirFail EACCES) root
        (buf.take pathLen ++ '/' :: name) symlinks silent hs =
        ⟨⟨[], [], if silent then []
            else [permMsg root (buf.take pathLen ++ '/' :: name)], 0⟩,
          buf.take pathLen ++ '/' :: name, [], []⟩ := by
      simp [walkfd]
    have hc : ¬((walkfd (.dirFail EACCES) root
        (buf.take pathLen ++ '/' :: name) symlinks silent hs).w.ret ≠ 0) := by
      rw [hperm]
      simp
    simp only [walkfdList, if_neg h0, if_neg hdot, if_pos hdir, if_neg hc]
    rw [hperm]
    have hlt : (buf.take pathLen).length = pathLen := by
      simp [List.length_take]; omega
    have hlen1 : pathLen ≤ (buf.take pathLen ++ '/' :: name).length := by
      simp [hlt]
    have htake1 : (buf.take pathLen ++ '/' :: name).take pathLen =
        buf.take pathLen := by
      rw [List.take_append_of_le_length (by omega)]
      rw [List.take_take]; congr 1; omega
    have e1 := walkfd_eq_walkCat_all.2 rest root pathLen
      (buf.take pathLen ++ '/' :: name) symlinks silent hs hlen1
    have e2 := walkfd_eq_walkCat_all.2 rest root pathLen buf
      symlinks silent hs hlen
    rw [htake1] at e1
    rw [e1, e2]
    simp
  · intro fs paths
    exact runPaths_ok_iff fs root symlinks silent hs paths

/-- Witness for C2 at concrete inputs: a non-EACCES open failure is fatal, a
getdents failure is fatal, and a run over one good path succeeds. -/
theorem claim_C2_witness :
    ((2 : Nat) ≠ EACCES ∧
      walkfd (.dirFail 2) wRoot wRel true false wHs =
        ⟨⟨[], [], [openFailMsg wRoot wRel 2], -1⟩, wRel, [], []⟩) ∧
    (walkfd (.dirOk [] true) wRoot wRel true false wHs).w.ret = -1 ∧
    ((FSNode.file 0).dtype = DT_UNKNOWN ∧
      walkfdList [(['u'], .file 0)] wRoot 2 wRel true false wHs =
        ⟨⟨[], [], [unknownMsg wRoot (wRel.take 2 ++ '/' :: ['u'])], -1⟩,
          wRel.take 2 ++ '/' :: ['u'], [wRel.take 2 ++ '/' :: ['u']], []⟩) := by
  have h2 : (2 : Nat) ≠ EACCES := by decide
  have hu : (FSNode.file 0).dtype = DT_UNKNOWN := rfl
  exact ⟨⟨h2, (claim_C2 wRoot wRel true false wHs).2.1 2 h2⟩,
    (claim_C2 wRoot wRel true false wHs).2.2.1 [],
    ⟨hu, (claim_C2 wRoot wRel true false wHs).2.2.2.2.1 ['u'] (.file 0) [] 2
      wRel hu⟩⟩

/-- Counterexample to C3: a directory holding one entry whose enumeration
hint is DT_UNKNOWN but which is an ordinary regular file (lstat mode 0100644,
so the lstat fallback — had one been invoked — resolves the concrete type
DT_REG).  The claim says the walker performs the fallback query and aborts
only when it also fails to yield a concrete type; `walkfd` instead aborts
fatally at once, with no membership test and no fallback: its result does not
depend on any lstat outcome, and the walk returns -1 although
`getfiletype (some 0o100644) = DT_REG` is a concrete type. -/
theorem claim_C3_counterexample :
    (walkfd (.dirOk [(['u'], .file DT_UNKNOWN)] false) wRoot wRel true false
      wHs).w.ret = -1 ∧
    (walkfd (.dirOk [(['u'], .file DT_UNKNOWN)] false) wRoot wRel true false
      wHs).w.tests = [] ∧
    getfiletype (some 0x81A4) = (DT_REG : Int) ∧
    getfiletype (some 0x81A4) ≠ -1 ∧
    getfiletype (some 0x81A4) ≠ (DT_UNKNOWN : Int) := by
  refine ⟨?_, ?_, ?_, ?_, ?_⟩
  · simp [walkfd, walkfdList, FSNode.dtype, DT_UNKNOWN]
  · simp [walkfd, walkfdList, FSNode.dtype, DT_UNKNOWN]
  · decide
  · decide
  · decide

/-- Claim C3 (amended): in `walkfd` of src/find-untracked-files.c a directory
entry whose enumeration-supplied type hint is DT_UNKNOWN is immediately
fatal: the walk prints the FAIL diagnostic and returns -1 without performing
any fallback status query and without testing the entry against the index.
(The lstat-based fallback `getfiletype`, which does not follow symlinks and
maps the S_IFMT mode bits onto the dirent classification, exists only in the
repository's readdir-based variant walkers.) -/
theorem claim_C3_amended (name : Str) (node : FSNode)
    (rest : List (Str × FSNode)) (root : Str) (pathLen : Nat) (buf : Str)
    (symlinks silent : Bool) (hs : List Str)
    (h : node.dtype = DT_UNKNOWN) :
    walkfdList ((name, node) :: rest) root pathLen buf symlinks silent hs =
      ⟨⟨[], [], [unknownMsg root (buf.take pathLen ++ '/' :: name)], -1⟩,
        buf.take pathLen ++ '/' :: name,
        [buf.take pathLen ++ '/' :: name], []⟩ ∧
    getfiletype none = -1 ∧
    (∀ m, m &&& S_IFMT = S_IFREG → getfiletype (some m) = (DT_REG : Int)) ∧
    (∀ m, m &&& S_IFMT = S_IFDIR → getfiletype (some m) = (DT_DIR : Int)) ∧
    (∀ m, m &&& S_IFMT = S_IFLNK → getfiletype (some m) = (DT_LNK : Int)) := by
  refine ⟨?_, ?_, ?_, ?_, ?_⟩
  · simp only [walkfdList, if_pos h]
  · simp [getfiletype]
  · intro m hm
    simp [getfiletype, hm]
  · intro m hm
    simp [getfiletype, hm, S_IFREG, S_IFDIR]
  · intro m hm
    simp [getfiletype, hm, S_IFREG, S_IFDIR, S_IFLNK]

/-- Witness for the amended C3 at a concrete unknown-hint entry. -/
theorem claim_C3_witness :
    (FSNode.file 0).dtype = DT_UNKNOWN ∧
    (walkfdList [(['u'], .file 0)] wRoot 2 wRel true false wHs =
      ⟨⟨[], [], [unknownMsg wRoot (wRel.take 2 ++ '/' :: ['u'])], -1⟩,
        wRel.take 2 ++ '/' :: ['u'], [wRel.take 2 ++ '/' :: ['u']], []⟩ ∧
      getfiletype none = -1 ∧
      (∀ m, m &&& S_IFMT = S_IFREG → getfiletype (some m) = (DT_REG : Int)) ∧
      (∀ m, m &&& S_IFMT = S_IFDIR → getfiletype (some m) = (DT_DIR : Int)) ∧
      (∀ m, m &&& S_IFMT = S_IFLNK → getfiletype (some m) = (DT_LNK : Int))) := by
  have hu : (FSNode.file 0).dtype = DT_UNKNOWN := rfl
  exact ⟨hu, claim_C3_amended ['u'] (.file 0) [] wRoot 2 wRel true false wHs hu⟩

/-- Claim C8: the reflexive pseudo-entries "." and ".." are never recursed
into — processing a dot-named directory entry is observationally identical
to skipping it — and any entry whose type is neither regular file, nor
directory, nor (when enabled) symlink (block or character device, fifo,
socket; also a symlink with checking disabled) is silently ignored: it is
never printed, never tested and never causes an error. -/
theorem claim_C8 :
    (∀ (name : Str) (node : FSNode) (rest : List (Str × FSNode)) (root : Str)
      (pathLen : Nat) (buf : Str) (symlinks silent : Bool) (hs : List Str),
      pathLen ≤ buf.length →
      node.dtype = DT_DIR → (name = dotName ∨ name = ddotName) →
      (walkfdList ((name, node) :: rest) root pathLen buf
          symlinks silent hs).w =
        (walkfdList rest root pathLen buf symlinks silent hs).w) ∧
    (∀ (name : Str) (node : FSNode) (rest : List (Str × FSNode)) (root : Str)
      (pathLen : Nat) (buf : Str) (symlinks silent : Bool) (hs : List Str),
      pathLen ≤ buf.length →
      node.dtype ≠ DT_UNKNOWN → node.dtype ≠ DT_DIR → node.dtype ≠ DT_REG →
      (node.dtype = DT_LNK → symlinks = false) →
      (walkfdList ((name, node) :: rest) root pathLen buf
          symlinks silent hs).w =
        (walkfdList rest root pathLen buf symlinks silent hs).w) := by
  have hbufind : ∀ (name : Str) (rest : List (Str × FSNode)) (root : Str)
      (pathLen : Nat) (buf : Str) (symlinks silent : Bool) (hs : List Str),
      pathLen ≤ buf.length →
      (walkfdList rest root pathLen (buf.take pathLen ++ '/' :: name)
          symlinks silent hs).w =
        (walkfdList rest root pathLen buf symlinks silent hs).w := by
    intro name rest root pathLen buf symlinks silent hs hlen
    have hlt : (buf.take pathLen).length = pathLen := by
      simp [List.length_take]; omega
    have hlen1 : pathLen ≤ (buf.take pathLen ++ '/' :: name).length := by
      simp [hlt]
    have htake1 : (buf.take pathLen ++ '/' :: name).take pathLen =
        buf.take pathLen := by
      rw [List.take_append_of_le_length (by omega)]
      rw [List.take_take]; congr 1; omega
    have e1 := walkfd_eq_walkCat_all.2 rest root pathLen
      (buf.take pathLen ++ '/' :: name) symlinks silent hs hlen1
    have e2 := walkfd_eq_walkCat_all.2 rest root pathLen buf
      symlinks silent hs hlen
    rw [htake1] at e1
    rw [e1, e2]
  constructor
  · intro name node rest root pathLen buf symlinks silent hs hlen hdir hd
    have h0 : ¬(node.dtype = DT_UNKNOWN) := by
      rw [hdir]
      simp [DT_DIR, DT_UNKNOWN]
    simp only [walkfdList, if_neg h0, if_pos (And.intro hdir hd)]
    exact hbufind name rest root pathLen buf symlinks silent hs hlen
  · intro name node rest root pathLen buf symlinks silent hs hlen h0 hdir
      hreg hlnk
    have hdot : ¬(node.dtype = DT_DIR ∧ (name = dotName ∨ name = ddotName)) :=
      fun hh => hdir hh.1
    have hregc : ¬(node.dtype = DT_REG ∨
        (node.dtype = DT_LNK ∧ symlinks = true)) := by
      rintro (hh | ⟨hh, hsy⟩)
      · exact hreg hh
      · rw [hlnk hh] at hsy
        exact absurd hsy (by simp)
    simp only [walkfdList, if_neg h0, if_neg hdot, if_neg hdir, if_neg hregc]
    exact hbufind name rest root pathLen buf symlinks silent hs hlen

/-- Witness for C8: a "." directory entry and a block-device entry both
leave a concrete walk's observable behaviour unchanged. -/
theorem claim_C8_witness :
    ((2 : Nat) ≤ wRel.length ∧
      (FSNode.dirOk [(['x'], FSNode.file 8)] false).dtype = DT_DIR ∧
      (dotName = dotName ∨ dotName = ddotName) ∧
      (walkfdList [(dotName, .dirOk [(['x'], .file 8)] false),
          (['a'], .file 8)] wRoot 2 wRel true false wHs).w =
        (walkfdList [(['a'], .file 8)] wRoot 2 wRel true false wHs).w) ∧
    ((FSNode.file 6).dtype ≠ DT_UNKNOWN ∧ (FSNode.file 6).dtype ≠ DT_DIR ∧
      (FSNode.file 6).dtype ≠ DT_REG ∧
      (walkfdList [(['d'], .file 6), (['a'], .file 8)] wRoot 2 wRel true false
          wHs).w =
        (walkfdList [(['a'], .file 8)] wRoot 2 wRel true false wHs).w) := by
  have hlen : (2 : Nat) ≤ wRel.length := by decide
  have hdir : (FSNode.dirOk [(['x'], FSNode.file 8)] false).dtype = DT_DIR := rfl
  have hd : (dotName = dotName ∨ dotName = ddotName) := Or.inl rfl
  have h0 : (FSNode.file 6).dtype ≠ DT_UNKNOWN := by decide
  have h4 : (FSNode.file 6).dtype ≠ DT_DIR := by decide
  have h8 : (FSNode.file 6).dtype ≠ DT_REG := by decide
  have h10 : (FSNode.file 6).dtype = DT_LNK → (true : Bool) = false := by
    intro hh
    exact absurd hh (by decide)
  exact ⟨⟨hlen, hdir, hd,
      claim_C8.1 dotName (.dirOk [(['x'], .file 8)] false) [(['a'], .file 8)]
        wRoot 2 wRel true false wHs hlen hdir hd⟩,
    ⟨h0, h4, h8,
      claim_C8.2 ['d'] (.file 6) [(['a'], .file 8)] wRoot 2 wRel true false
        wHs hlen h0 h4 h8 h10⟩⟩

/-- Claim C9: the walk is a pure function of the tree, the enumeration order
and the index — identical runs produce identical output — and when two trees
enumerate the same entries (same paths, same types) in possibly different
per-directory orders, two successful walks print the same set of lines and
submit the same set of queries (equal as multisets, hence as sets). -/
theorem claim_C9 (t1 t2 : FSNode) (root rel : Str) (symlinks silent : Bool)
    (hs : List Str)
    (h1 : (walkfd t1 root rel symlinks silent hs).w.ret = 0)
    (h2 : (walkfd t2 root rel symlinks silent hs).w.ret = 0)
    (hperm : List.Perm (entriesOfN t1 rel) (entriesOfN t2 rel)) :
    List.Perm (walkfd t1 root rel symlinks silent hs).w.out
      (walkfd t2 root rel symlinks silent hs).w.out ∧
    List.Perm (walkfd t1 root rel symlinks silent hs).w.tests
      (walkfd t2 root rel symlinks silent hs).w.tests := by
  have he1 := walkfd_eq_walkCat_all.1 t1 root rel symlinks silent hs
  have he2 := walkfd_eq_walkCat_all.1 t2 root rel symlinks silent hs
  rw [he1] at h1 ⊢
  rw [he2] at h2 ⊢
  have ht1 := walkCat_tests_all.1 t1 root rel symlinks silent hs h1
  have ht2 := walkCat_tests_all.1 t2 root rel symlinks silent hs h2
  have ho1 := walkCat_out_all.1 t1 root rel symlinks silent hs
  have ho2 := walkCat_out_all.1 t2 root rel symlinks silent hs
  have htp : List.Perm (walkCat t1 root rel symlinks silent hs).tests
      (walkCat t2 root rel symlinks silent hs).tests := by
    rw [ht1, ht2]
    exact ((hperm.filter (reachPred symlinks)).map Prod.fst)
  refine ⟨?_, htp⟩
  rw [ho1, ho2]
  exact (htp.filter _).map _

/-- Witness for C9: the same concrete tree enumerated in two different
top-level orders yields permuted output. -/
theorem claim_C9_witness :
    (walkfd wTree wRoot wRel true false wHs).w.ret = 0 ∧
    (walkfd wTree2 wRoot wRel true false wHs).w.ret = 0 ∧
    List.Perm (entriesOfN wTree wRel) (entriesOfN wTree2 wRel) ∧
    (List.Perm (walkfd wTree wRoot wRel true false wHs).w.out
        (walkfd wTree2 wRoot wRel true false wHs).w.out ∧
      List.Perm (walkfd wTree wRoot wRel true false wHs).w.tests
        (walkfd wTree2 wRoot wRel true false wHs).w.tests) := by
  have h1 : (walkfd wTree wRoot wRel true false wHs).w.ret = 0 := by
    simp [wTree, wRoot, wRel, wHs, walkfd, walkfdList, FSNode.dtype, DT_UNKNOWN,
      DT_DIR, DT_REG, DT_LNK, dotName, ddotName]
  have h2 : (walkfd wTree2 wRoot wRel true false wHs).w.ret = 0 := by
    simp [wTree2, wRoot, wRel, wHs, walkfd, walkfdList, FSNode.dtype, DT_UNKNOWN,
      DT_DIR, DT_REG, DT_LNK, dotName, ddotName]
  have hperm : List.Perm (entriesOfN wTree wRel) (entriesOfN wTree2 wRel) := by
    have e1 : entriesOfN wTree wRel =
        [(['/', 's', '/', 'b'], 4), (['/', 's', '/', 'b', '/', 'c'], 8),
          (['/', 's', '/', 'a'], 8), (['/', 's', '/', 'l'], 10)] := by
      simp [wTree, wRel, entriesOfN, entriesOfL, FSNode.dtype, DT_DIR, dotName,
        ddotName]
    have e2 : entriesOfN wTree2 wRel =
        [(['/', 's', '/', 'a'], 8), (['/', 's', '/', 'l'], 10),
          (['/', 's', '/', 'b'], 4), (['/', 's', '/', 'b', '/', 'c'], 8)] := by
      simp [wTree2, wRel, entriesOfN, entriesOfL, FSNode.dtype, DT_DIR, dotName,
        ddotName]
    rw [e1, e2]
    decide
  exact ⟨h1, h2, hperm,
    claim_C9 wTree wTree2 wRoot wRel true false wHs h1 h2 hperm⟩

/-- Claim C5: with symlink checking disabled every printed line is the
root-qualified path of an untracked reachable regular file — under the
real-filesystem assumption that enumerated entry paths are distinct, no
symlink's path ever appears in the output, whatever the index contains — and
with symlink checking enabled a reachable symlink is printed exactly when its
root-relative path is absent from the index, the same rule as for regular
files. -/
theorem claim_C5 (node : FSNode) (root rel : Str) (silent : Bool)
    (hs : List Str) :
    (∀ l ∈ (walkfd node root rel false silent hs).w.out, ∃ p,
       p ∈ reachFiles node rel false ∧ p ∉ hs ∧ l = root ++ p) ∧
    (((entriesOfN node rel).map Prod.fst).Nodup →
      ∀ p ∈ linkPaths node rel,
        root ++ p ∉ (walkfd node root rel false silent hs).w.out) ∧
    ((walkfd node root rel true silent hs).w.ret = 0 →
      ∀ p ∈ linkPaths node rel,
        (root ++ p ∈ (walkfd node root rel true silent hs).w.out ↔ p ∉ hs)) := by
  have hef := walkfd_eq_walkCat_all.1 node root rel false silent hs
  have het := walkfd_eq_walkCat_all.1 node root rel true silent hs
  have ha : ∀ l ∈ (walkfd node root rel false silent hs).w.out, ∃ p,
      p ∈ reachFiles node rel false ∧ p ∉ hs ∧ l = root ++ p := by
    intro l hl
    rw [hef] at hl
    rw [walkCat_out_all.1 node root rel false silent hs] at hl
    simp only [List.mem_map, List.mem_filter] at hl
    obtain ⟨q, ⟨hqt, hqd⟩, rfl⟩ := hl
    exact ⟨q, walkCat_tests_sub_all.1 node root rel false silent hs q hqt,
      by simpa using hqd, rfl⟩
  refine ⟨ha, ?_, ?_⟩
  · intro hnd p hp hmem
    obtain ⟨q, hq, hqn, heq⟩ := ha (root ++ p) hmem
    have hpq : p = q := List.append_cancel_left heq
    subst hpq
    simp only [reachFiles, List.mem_map, List.mem_filter] at hq
    obtain ⟨e, ⟨heIn, hePred⟩, heFst⟩ := hq
    simp only [linkPaths, List.mem_map, List.mem_filter] at hp
    obtain ⟨e2, ⟨he2In, he2Pred⟩, he2Fst⟩ := hp
    have he2L : e2.2 = DT_LNK := by simpa using he2Pred
    have heR : e.2 = DT_REG := by
      simp only [reachPred] at hePred
      simpa using hePred
    have hee : e = e2 :=
      List.inj_on_of_nodup_map hnd heIn he2In (heFst.trans he2Fst.symm)
    rw [hee, he2L] at heR
    exact absurd heR (by decide)
  · intro hret p hp
    rw [het] at hret ⊢
    have ht := walkCat_tests_all.1 node root rel true silent hs hret
    have ho := walkCat_out_all.1 node root rel true silent hs
    rw [ht] at ho
    rw [ho]
    simp only [linkPaths, List.mem_map, List.mem_filter] at hp
    obtain ⟨e2, ⟨he2In, he2Pred⟩, he2Fst⟩ := hp
    have he2L : e2.2 = DT_LNK := by simpa using he2Pred
    have hpr : p ∈ reachFiles node rel true := by
      simp only [reachFiles, List.mem_map, List.mem_filter]
      refine ⟨e2, ⟨he2In, ?_⟩, he2Fst⟩
      simp [reachPred, he2L, DT_REG, DT_LNK]
    constructor
    · intro hmem
      simp only [List.mem_map, List.mem_filter] at hmem
      obtain ⟨q, ⟨hqr, hqd⟩, heq⟩ := hmem
      have hpq : q = p := List.append_cancel_left heq
      subst hpq
      simpa using hqd
    · intro hnot
      simp only [List.mem_map, List.mem_filter]
      exact ⟨p, ⟨hpr, by simpa using hnot⟩, rfl⟩

/-- Witness for C5: in the concrete tree the symlink "/s/l" is untracked and
is printed exactly for this reason when symlink checking is on. -/
theorem claim_C5_witness :
    (walkfd wTree wRoot wRel true false wHs).w.ret = 0 ∧
    ['/', 's', '/', 'l'] ∈ linkPaths wTree wRel ∧
    (wRoot ++ ['/', 's', '/', 'l'] ∈
        (walkfd wTree wRoot wRel true false wHs).w.out ↔
      ['/', 's', '/', 'l'] ∉ wHs) := by
  have h1 : (walkfd wTree wRoot wRel true false wHs).w.ret = 0 := by
    simp [wTree, wRoot, wRel, wHs, walkfd, walkfdList, FSNode.dtype, DT_UNKNOWN,
      DT_DIR, DT_REG, DT_LNK, dotName, ddotName]
  have h2 : ['/', 's', '/', 'l'] ∈ linkPaths wTree wRel := by
    have e1 : entriesOfN wTree wRel =
        [(['/', 's', '/', 'b'], 4), (['/', 's', '/', 'b', '/', 'c'], 8),
          (['/', 's', '/', 'a'], 8), (['/', 's', '/', 'l'], 10)] := by
      simp [wTree, wRel, entriesOfN, entriesOfL, FSNode.dtype, DT_DIR, dotName,
        ddotName]
    rw [linkPaths, e1]
    decide
  exact ⟨h1, h2, (claim_C5 wTree wRoot wRel false wHs).2.2 h1 _ h2⟩
